import Mathlib

/-!
Verification development for the Netpbm codec and raster-drawing core
(`pbm.go`, `pgm.go`, `ppm.go`).

The Go sources are shallowly embedded: byte streams are `List Nat`
(each entry one byte value), Go strings are byte lists, `uint8`
arithmetic is `Nat` arithmetic with explicit `% 256` where the Go code
could wrap, Go `int` is `Int`, and fallible operations return
`Except`/`Option`.  Go runtime panics (negative `make` sizes, slice
index out of range) are modelled by an explicit `runtimeCrash` error
value respectively by `Option` results.
-/

deriving instance DecidableEq for Except

namespace Netpbm

/-- Byte streams: a Go file's contents as a list of byte values. -/
abbrev ByteStream := List Nat

/-- ASCII whitespace recognised by Go's `strings.Fields` / `TrimSpace`
(space, tab, newline, vertical tab, form feed, carriage return). -/
def isSpaceByte (b : Nat) : Bool :=
  b == 32 || b == 9 || b == 10 || b == 11 || b == 12 || b == 13

/-- ASCII decimal digit bytes. -/
def isDigitByte (b : Nat) : Bool :=
  48 ≤ b && b ≤ 57

/-- Model of `bufio.Reader.ReadString('\n')`: the returned line includes
the delimiter.  When the stream holds no newline the Go call reports an
error together with the partial data and every caller in the sources
treats that as failure, so the model returns `none`. -/
def readStringNL : ByteStream → Option (ByteStream × ByteStream)
  | [] => none
  | b :: rest =>
    if b = 10 then some ([10], rest)
    else
      match readStringNL rest with
      | some (line, r) => some (b :: line, r)
      | none => none

/-- Model of `strings.TrimSpace` on ASCII data. -/
def trimSpace (l : ByteStream) : ByteStream :=
  ((l.dropWhile isSpaceByte).reverse.dropWhile isSpaceByte).reverse

/-- Model of `strings.Fields`, one byte at a time: `cur` is the
current token's bytes in reverse.  (Structured this way so the kernel
can evaluate it; it computes the maximal non-whitespace runs.) -/
def fieldsAux : ByteStream → ByteStream → List ByteStream
  | [], cur => if cur = [] then [] else [cur.reverse]
  | b :: rest, cur =>
    if isSpaceByte b then
      if cur = [] then fieldsAux rest [] else cur.reverse :: fieldsAux rest []
    else fieldsAux rest (b :: cur)

/-- Model of `strings.Fields`: maximal runs of non-whitespace bytes. -/
def fields (l : ByteStream) : List ByteStream :=
  fieldsAux l []

/-- Numeric value of a digit-byte list, most significant first. -/
def digitsVal (l : ByteStream) : Nat :=
  l.foldl (fun a b => a * 10 + (b - 48)) 0

/-- Decimal digit bytes of `n`, as printed by Go's `fmt` `%d` verb for a
nonnegative value; the first argument is fuel (any amount at least `n`
yields all digits, since `n / 10 < n` for positive `n`). -/
def natDecimalAux : Nat → Nat → ByteStream → ByteStream
  | 0, _, acc => acc
  | _, 0, acc => acc
  | fuel + 1, n + 1, acc => natDecimalAux fuel ((n + 1) / 10) ((48 + (n + 1) % 10) :: acc)

/-- Decimal digit bytes of a natural number (`fmt` `%d`). -/
def natDecimal (n : Nat) : ByteStream :=
  if n = 0 then [48] else natDecimalAux n n []

/-- Decimal digit bytes of an integer (`fmt` `%d`), minus sign included. -/
def intDecimal (n : Int) : ByteStream :=
  if n < 0 then 45 :: natDecimal n.natAbs else natDecimal n.natAbs

/-- The digit-run part of a `%d` conversion: a nonempty digit run and
its value (negated for `neg`), with the unread remainder. -/
def scanIntCore (t : ByteStream) (neg : Bool) : Option (Int × ByteStream) :=
  let ds := t.takeWhile isDigitByte
  if ds = [] then none
  else some (if neg then -(digitsVal ds : Int) else (digitsVal ds : Int), t.dropWhile isDigitByte)

/-- Model of one `%d` conversion of `fmt.Sscanf` into a Go `int`: skip
leading whitespace, read an optional sign ('-' is byte 45, '+' is 43)
and a nonempty digit run, and return the value together with the
unread remainder. -/
def scanInt (s : ByteStream) : Option (Int × ByteStream) :=
  let s1 := s.dropWhile isSpaceByte
  if s1.headD 0 = 45 then scanIntCore s1.tail true
  else if s1.headD 0 = 43 then scanIntCore s1.tail false
  else scanIntCore s1 false

/-- Model of one `%d` conversion of `fmt.Sscanf` into a Go `uint8`:
digits only, failing on values above 255 (Go reports a range error). -/
def scanUint8 (s : ByteStream) : Option (Nat × ByteStream) :=
  let s1 := s.dropWhile isSpaceByte
  let ds := s1.takeWhile isDigitByte
  if ds = [] then none
  else if digitsVal ds ≤ 255 then some (digitsVal ds, s1.dropWhile isDigitByte)
  else none

/-- Model of `fmt.Sscanf(line, "%d %d", &width, &height)` as used for the
dimensions record: two integers; anything after the second is ignored. -/
def parseDims (s : ByteStream) : Option (Int × Int) :=
  match scanInt s with
  | none => none
  | some (w, r) =>
    match scanInt r with
    | none => none
    | some (h, _) => some (w, h)

/-- Model of `fmt.Sscanf(token, "%d", &x)` for a `uint8` destination,
ignoring anything after the number. -/
def parseUint8 (s : ByteStream) : Option Nat :=
  match scanUint8 s with
  | none => none
  | some (v, _) => some v

/-! ## Image structures (`PBM`, `PGM`, `PPM`, `Pixel`, `Point`) -/

/-- Magic token `"P1"` as bytes. -/
def mP1 : ByteStream := [80, 49]

/-- Magic token `"P2"` as bytes. -/
def mP2 : ByteStream := [80, 50]

/-- Magic token `"P3"` as bytes. -/
def mP3 : ByteStream := [80, 51]

/-- Magic token `"P4"` as bytes. -/
def mP4 : ByteStream := [80, 52]

/-- Magic token `"P5"` as bytes. -/
def mP5 : ByteStream := [80, 53]

/-- Magic token `"P6"` as bytes. -/
def mP6 : ByteStream := [80, 54]

/-- The `PBM` struct of `pbm.go`. -/
structure PBM where
  data : List (List Bool)
  width : Int
  height : Int
  magicNumber : ByteStream
  deriving Repr, DecidableEq

/-- The `PGM` struct of `pgm.go`; samples are `uint8` values. -/
structure PGM where
  data : List (List Nat)
  width : Int
  height : Int
  magicNumber : ByteStream
  max : Nat
  deriving Repr, DecidableEq

/-- The `Pixel` struct of `ppm.go`. -/
structure Pixel where
  R : Nat
  G : Nat
  B : Nat
  deriving Repr, DecidableEq

/-- The `PPM` struct of `ppm.go`. -/
structure PPM where
  data : List (List Pixel)
  width : Int
  height : Int
  magicNumber : ByteStream
  max : Nat
  deriving Repr, DecidableEq

/-- The `Point` struct of `ppm.go`. -/
structure Point where
  X : Int
  Y : Int
  deriving Repr, DecidableEq

/-- Well-formed in-memory bitmap image: positive dimensions, rectangular
buffer of matching size, and a bitmap magic token. -/
def PBM.wf (m : PBM) : Prop :=
  1 ≤ m.width ∧ 1 ≤ m.height ∧
  m.data.length = m.height.toNat ∧
  (∀ r ∈ m.data, r.length = m.width.toNat) ∧
  (m.magicNumber = mP1 ∨ m.magicNumber = mP4)

/-- Well-formed in-memory grayscale image: positive dimensions, matching
rectangular buffer, `uint8` samples and max, and a grayscale magic. -/
def PGM.wf (m : PGM) : Prop :=
  1 ≤ m.width ∧ 1 ≤ m.height ∧
  m.data.length = m.height.toNat ∧
  (∀ r ∈ m.data, r.length = m.width.toNat ∧ ∀ v ∈ r, v ≤ 255) ∧
  m.max ≤ 255 ∧
  (m.magicNumber = mP2 ∨ m.magicNumber = mP5)

/-- Well-formed in-memory color image: positive dimensions, matching
rectangular buffer, `uint8` channels and max, and a color magic. -/
def PPM.wf (m : PPM) : Prop :=
  1 ≤ m.width ∧ 1 ≤ m.height ∧
  m.data.length = m.height.toNat ∧
  (∀ r ∈ m.data, r.length = m.width.toNat ∧
    ∀ p ∈ r, p.R ≤ 255 ∧ p.G ≤ 255 ∧ p.B ≤ 255) ∧
  m.max ≤ 255 ∧
  (m.magicNumber = mP3 ∨ m.magicNumber = mP6)

/-! ## Decoding (`ReadPBM`, `ReadPGM`, `ReadPPM`) -/

/-- Failure modes of the three `Read` functions.  Constructors follow the
`fmt.Errorf` messages of the sources: `extraTokens` is the
`"index out of range at row %d"` failure of the P1/P2 loops,
`shortRow` the `"index out of range at row %d, column %d"` failure of
the P3 loop, `rowReadFailure`/`truncatedRow` the end-of-file failures of
the data loops, and `runtimeCrash` a Go runtime panic (a `make` call
with a negative size). -/
inductive DecodeError where
  | headerReadFailure (record : Nat)
  | invalidFormat
  | invalidDimensions
  | invalidMaxValue
  | rowReadFailure (row : Nat)
  | truncatedRow (row : Nat)
  | extraTokens (row : Nat)
  | shortRow (row : Nat) (col : Nat)
  | pixelParseFailure (row : Nat) (col : Nat)
  | runtimeCrash
  deriving Repr, DecidableEq

/-- The P1 row loop of `ReadPBM`: walk the line's tokens with their
index, fail when an index reaches `width`, otherwise store
`field == "1"` ('1' is byte 49) into the pre-allocated row. -/
def fillBoolRow (width : Int) (y : Nat) :
    List Bool → Nat → List ByteStream → Except DecodeError (List Bool)
  | row, _, [] => .ok row
  | row, x, f :: fs =>
    if (x : Int) ≥ width then .error (.extraTokens y)
    else fillBoolRow width y (row.set x (f = [49])) (x + 1) fs

/-- The P1 branch of `ReadPBM`: one text line per row, split into
whitespace-separated tokens. -/
def readP1Rows (width : Int) (y : Nat) :
    Nat → ByteStream → Except DecodeError (List (List Bool) × ByteStream)
  | 0, s => .ok ([], s)
  | n + 1, s =>
    match readStringNL s with
    | none => .error (.rowReadFailure y)
    | some (line, s1) =>
      match fillBoolRow width y (List.replicate width.toNat false) 0 (fields line) with
      | .error e => .error e
      | .ok row =>
        match readP1Rows width (y + 1) n s1 with
        | .error e => .error e
        | .ok (rows, s2) => .ok (row :: rows, s2)

/-- Bit `7 - x % 8` of packed byte `x / 8`, exactly as the P4 branch
extracts it: `(int(row[byteIndex]) >> bitIndex) & 1 != 0`. -/
def unpackRow (wN : Nat) (bytes : ByteStream) : List Bool :=
  (List.range wN).map fun x => (bytes.getD (x / 8) 0) / 2 ^ (7 - x % 8) % 2 != 0

/-- The P4 branch of `ReadPBM`: `(width+7)/8` packed bytes per row; an
empty stream is the end-of-file failure and a short stream the
short-read failure of the source. -/
def readP4Rows (wN : Nat) (y : Nat) :
    Nat → ByteStream → Except DecodeError (List (List Bool) × ByteStream)
  | 0, s => .ok ([], s)
  | n + 1, s =>
    let bpr := (wN + 7) / 8
    if 0 < bpr ∧ s = [] then .error (.rowReadFailure y)
    else if s.length < bpr then .error (.truncatedRow y)
    else
      match readP4Rows wN (y + 1) n (s.drop bpr) with
      | .error e => .error e
      | .ok (rows, s2) => .ok (unpackRow wN (s.take bpr) :: rows, s2)

/-- Model of `ReadPBM` on the contents of the named file.  The header is
two text lines (magic, dimensions); `make` with a negative size is the
Go runtime panic, modelled by `runtimeCrash`. -/
def ReadPBM (s : ByteStream) : Except DecodeError PBM :=
  match readStringNL s with
  | none => .error (.headerReadFailure 0)
  | some (l1, s1) =>
    let magic := trimSpace l1
    if magic ≠ mP1 ∧ magic ≠ mP4 then .error .invalidFormat
    else
      match readStringNL s1 with
      | none => .error (.headerReadFailure 1)
      | some (l2, s2) =>
        match parseDims (trimSpace l2) with
        | none => .error .invalidDimensions
        | some (w, h) =>
          if h < 0 then .error .runtimeCrash
          else if 0 < h ∧ w < 0 then .error .runtimeCrash
          else if magic = mP1 then
            match readP1Rows w 0 h.toNat s2 with
            | .error e => .error e
            | .ok (rows, _) => .ok ⟨rows, w, h, magic⟩
          else
            match readP4Rows w.toNat 0 h.toNat s2 with
            | .error e => .error e
            | .ok (rows, _) => .ok ⟨rows, w, h, magic⟩

/-- The P2 row loop of `ReadPGM`: like the P1 loop but each token is
parsed as a `uint8` sample. -/
def fillNatRow (width : Int) (y : Nat) :
    List Nat → Nat → List ByteStream → Except DecodeError (List Nat)
  | row, _, [] => .ok row
  | row, x, f :: fs =>
    if (x : Int) ≥ width then .error (.extraTokens y)
    else
      match parseUint8 f with
      | none => .error (.pixelParseFailure y x)
      | some v => fillNatRow width y (row.set x v) (x + 1) fs

/-- The P2 branch of `ReadPGM`: one text line per row. -/
def readP2Rows (width : Int) (y : Nat) :
    Nat → ByteStream → Except DecodeError (List (List Nat) × ByteStream)
  | 0, s => .ok ([], s)
  | n + 1, s =>
    match readStringNL s with
    | none => .error (.rowReadFailure y)
    | some (line, s1) =>
      match fillNatRow width y (List.replicate width.toNat 0) 0 (fields line) with
      | .error e => .error e
      | .ok row =>
        match readP2Rows width (y + 1) n s1 with
        | .error e => .error e
        | .ok (rows, s2) => .ok (row :: rows, s2)

/-- The P5 branch of `ReadPGM`: `width` raw bytes per row. -/
def readP5Rows (wN : Nat) (y : Nat) :
    Nat → ByteStream → Except DecodeError (List (List Nat) × ByteStream)
  | 0, s => .ok ([], s)
  | n + 1, s =>
    if 0 < wN ∧ s = [] then .error (.rowReadFailure y)
    else if s.length < wN then .error (.truncatedRow y)
    else
      match readP5Rows wN (y + 1) n (s.drop wN) with
      | .error e => .error e
      | .ok (rows, s2) => .ok (s.take wN :: rows, s2)

/-- Model of `ReadPGM`: three header lines (magic, dimensions with a
positivity check, max value), then P2 or P5 pixel data. -/
def ReadPGM (s : ByteStream) : Except DecodeError PGM :=
  match readStringNL s with
  | none => .error (.headerReadFailure 0)
  | some (l1, s1) =>
    let magic := trimSpace l1
    if magic ≠ mP2 ∧ magic ≠ mP5 then .error .invalidFormat
    else
      match readStringNL s1 with
      | none => .error (.headerReadFailure 1)
      | some (l2, s2) =>
        match parseDims (trimSpace l2) with
        | none => .error .invalidDimensions
        | some (w, h) =>
          if w ≤ 0 ∨ h ≤ 0 then .error .invalidDimensions
          else
            match readStringNL s2 with
            | none => .error (.headerReadFailure 2)
            | some (l3, s3) =>
              match parseUint8 (trimSpace l3) with
              | none => .error .invalidMaxValue
              | some mx =>
                if magic = mP2 then
                  match readP2Rows w 0 h.toNat s3 with
                  | .error e => .error e
                  | .ok (rows, _) => .ok ⟨rows, w, h, magic, mx⟩
                else
                  match readP5Rows w.toNat 0 h.toNat s3 with
                  | .error e => .error e
                  | .ok (rows, _) => .ok ⟨rows, w, h, magic, mx⟩

/-- The P3 row loop of `ReadPPM`: for each column `x < width` the tokens
`x*3`, `x*3+1`, `x*3+2` of the row's line are parsed as R, G, B; a line
with fewer than `3*width` tokens fails with the source's
`"index out of range at row %d, column %d"` error. -/
def parseP3Row (fs : List ByteStream) (y : Nat) (x : Nat) :
    Nat → Except DecodeError (List Pixel)
  | 0 => .ok []
  | n + 1 =>
    if x * 3 + 2 ≥ fs.length then .error (.shortRow y x)
    else
      match parseUint8 (fs.getD (x * 3) []), parseUint8 (fs.getD (x * 3 + 1) []),
          parseUint8 (fs.getD (x * 3 + 2) []) with
      | some r, some g, some b =>
        match parseP3Row fs y (x + 1) n with
        | .error e => .error e
        | .ok rest => .ok (⟨r, g, b⟩ :: rest)
      | _, _, _ => .error (.pixelParseFailure y x)

/-- The P3 branch of `ReadPPM`: one text line per row. -/
def readP3Rows (wN : Nat) (y : Nat) :
    Nat → ByteStream → Except DecodeError (List (List Pixel) × ByteStream)
  | 0, s => .ok ([], s)
  | n + 1, s =>
    match readStringNL s with
    | none => .error (.rowReadFailure y)
    | some (line, s1) =>
      match parseP3Row (fields line) y 0 wN with
      | .error e => .error e
      | .ok row =>
        match readP3Rows wN (y + 1) n s1 with
        | .error e => .error e
        | .ok (rows, s2) => .ok (row :: rows, s2)

/-- Three consecutive raw bytes per pixel, as the P6 branch reads them. -/
def unpackPixelRow (wN : Nat) (bytes : ByteStream) : List Pixel :=
  (List.range wN).map fun x =>
    ⟨bytes.getD (x * 3) 0, bytes.getD (x * 3 + 1) 0, bytes.getD (x * 3 + 2) 0⟩

/-- The P6 branch of `ReadPPM`: `width*3` raw bytes per row. -/
def readP6Rows (wN : Nat) (y : Nat) :
    Nat → ByteStream → Except DecodeError (List (List Pixel) × ByteStream)
  | 0, s => .ok ([], s)
  | n + 1, s =>
    let bpr := wN * 3
    if 0 < bpr ∧ s = [] then .error (.rowReadFailure y)
    else if s.length < bpr then .error (.truncatedRow y)
    else
      match readP6Rows wN (y + 1) n (s.drop bpr) with
      | .error e => .error e
      | .ok (rows, s2) => .ok (unpackPixelRow wN (s.take bpr) :: rows, s2)

/-- Model of `ReadPPM`: three header lines (magic, dimensions with a
positivity check, max value), then P3 or P6 pixel data. -/
def ReadPPM (s : ByteStream) : Except DecodeError PPM :=
  match readStringNL s with
  | none => .error (.headerReadFailure 0)
  | some (l1, s1) =>
    let magic := trimSpace l1
    if magic ≠ mP3 ∧ magic ≠ mP6 then .error .invalidFormat
    else
      match readStringNL s1 with
      | none => .error (.headerReadFailure 1)
      | some (l2, s2) =>
        match parseDims (trimSpace l2) with
        | none => .error .invalidDimensions
        | some (w, h) =>
          if w ≤ 0 ∨ h ≤ 0 then .error .invalidDimensions
          else
            match readStringNL s2 with
            | none => .error (.headerReadFailure 2)
            | some (l3, s3) =>
              match parseUint8 (trimSpace l3) with
              | none => .error .invalidMaxValue
              | some mx =>
                if magic = mP3 then
                  match readP3Rows w.toNat 0 h.toNat s3 with
                  | .error e => .error e
                  | .ok (rows, _) => .ok ⟨rows, w, h, magic, mx⟩
                else
                  match readP6Rows w.toNat 0 h.toNat s3 with
                  | .error e => .error e
                  | .ok (rows, _) => .ok ⟨rows, w, h, magic, mx⟩

/-! ## Encoding (`Save` of each struct) -/

/-- Tokens joined by a separator (single spaces between row samples). -/
def joinSep (sep : ByteStream) : List ByteStream → ByteStream
  | [] => []
  | [t] => t
  | t :: ts => t ++ sep ++ joinSep sep ts

/-- One P1 text row: `"0"`/`"1"` tokens separated by single spaces,
newline-terminated (`saveP1`). -/
def p1Row (wN : Nat) (row : List Bool) : ByteStream :=
  joinSep [32] ((List.range wN).map fun x => [if row.getD x false then 49 else 48]) ++ [10]

/-- One packed byte of a P4 row: bit `7 - i` is sample `8*k + i`
(`saveP4`'s `row[byteIndex] |= 1 << bitIndex`). -/
def packByte (row : List Bool) (k : Nat) : Nat :=
  (List.range 8).foldl (fun acc i => if row.getD (8 * k + i) false then acc + 2 ^ (7 - i) else acc) 0

/-- One P4 binary row: `(width+7)/8` packed bytes, padding bits zero. -/
def p4Row (wN : Nat) (row : List Bool) : ByteStream :=
  (List.range ((wN + 7) / 8)).map (packByte row)

/-- Model of `PBM.Save`: header `"%s\n%d %d\n"` followed by P1 or P4
rows; an unsupported magic token makes the Go function return an error
(after writing only the header), modelled as `none`. -/
def PBM.Save (m : PBM) : Option ByteStream :=
  let header := m.magicNumber ++ [10] ++ intDecimal m.width ++ [32] ++ intDecimal m.height ++ [10]
  if m.magicNumber = mP1 then
    some (header ++ (m.data.map (p1Row m.width.toNat)).flatten)
  else if m.magicNumber = mP4 then
    some (header ++ (m.data.map (p4Row m.width.toNat)).flatten)
  else none

/-- One P2 text row: decimal samples separated by single spaces,
newline-terminated (`saveP2PGM`). -/
def p2Row (wN : Nat) (row : List Nat) : ByteStream :=
  joinSep [32] ((List.range wN).map fun x => natDecimal (row.getD x 0)) ++ [10]

/-- One P5 binary row: one raw byte per sample (`saveP5PGM`). -/
def p5Row (wN : Nat) (row : List Nat) : ByteStream :=
  (List.range wN).map fun x => row.getD x 0

/-- Model of `PGM.Save`: header of three newline-terminated records,
a consistency check that every row has `width` samples (`none` on
failure), then P2 or P5 rows; an unrecognised magic token writes the
header only and reports no error. -/
def PGM.Save (m : PGM) : Option ByteStream :=
  let header := m.magicNumber ++ [10] ++ intDecimal m.width ++ [32] ++ intDecimal m.height ++ [10]
    ++ natDecimal m.max ++ [10]
  if m.data.any (fun r => (r.length : Int) ≠ m.width) then none
  else if m.magicNumber = mP2 then
    some (header ++ (m.data.map (p2Row m.width.toNat)).flatten)
  else if m.magicNumber = mP5 then
    some (header ++ (m.data.map (p5Row m.width.toNat)).flatten)
  else some header

/-- One P3 text row: `"%d %d %d "` per pixel (trailing space included),
then one newline (`PPM.Save`'s P3 loop). -/
def p3Row (wN : Nat) (row : List Pixel) : ByteStream :=
  ((List.range wN).map fun x =>
    let px := row.getD x ⟨0, 0, 0⟩
    natDecimal px.R ++ [32] ++ natDecimal px.G ++ [32] ++ natDecimal px.B ++ [32]).flatten ++ [10]

/-- One P6 binary row: three raw bytes per pixel. -/
def p6Row (wN : Nat) (row : List Pixel) : ByteStream :=
  ((List.range wN).map fun x =>
    let px := row.getD x ⟨0, 0, 0⟩
    [px.R, px.G, px.B]).flatten

/-- Model of `PPM.Save`: header `"%s\n%d %d\n%d\n"` (written only for a
valid magic token, else the function errors first, modelled `none`),
then P3 or P6 rows. -/
def PPM.Save (m : PPM) : Option ByteStream :=
  if m.magicNumber = mP6 ∨ m.magicNumber = mP3 then
    let header := m.magicNumber ++ [10] ++ intDecimal m.width ++ [32] ++ intDecimal m.height ++ [10]
      ++ natDecimal m.max ++ [10]
    if m.magicNumber = mP6 then
      some (header ++ (m.data.map (p6Row m.width.toNat)).flatten)
    else
      some (header ++ (m.data.map (p3Row m.width.toNat)).flatten)
  else none

/-! ## Tonal operations and pixel accessors -/

/-- Go `uint8` subtraction `a - b` on byte values (wrap-around mod 256). -/
def u8sub (a b : Nat) : Nat :=
  (a % 256 + 256 - b % 256) % 256

/-- `PBM.Invert`: every pixel becomes its boolean negation. -/
def PBM.Invert (m : PBM) : PBM :=
  { m with data := m.data.map fun r => r.map (!·) }

/-- `PGM.Invert`: every sample becomes `uint8(pgm.max) - v`. -/
def PGM.Invert (m : PGM) : PGM :=
  { m with data := m.data.map fun r => r.map fun v => u8sub m.max v }

/-- `PPM.Invert`: every channel becomes `255 - c` (a fixed 255
complement; the stored max value is not consulted). -/
def PPM.Invert (m : PPM) : PPM :=
  { m with data := m.data.map fun r => r.map fun p =>
      (⟨u8sub 255 p.R, u8sub 255 p.G, u8sub 255 p.B⟩ : Pixel) }

/-- Go's `uint8(float64(v) * float64(newMax) / float64(oldMax))` for
byte-sized operands.  All products involved are at most `255 * 255`, so
they are exact in `float64`, and the rounded quotient of two such
integers can never cross an integer boundary (a non-integral quotient
is at least `1/255` away from the next integer while the rounding error
is below `2^-40`); Go's truncating conversion therefore yields exactly
the integer quotient.  The Go expression is undefined for `oldMax = 0`
(a NaN or infinity conversion); theorems about it assume `0 < oldMax`. -/
def scaleU8 (v newMax oldMax : Nat) : Nat :=
  v * newMax / oldMax

/-- `PGM.SetMaxValue`: rescale every sample, then store the new max. -/
def PGM.SetMaxValue (m : PGM) (maxValue : Nat) : PGM :=
  { m with data := m.data.map (fun r => r.map fun v => scaleU8 v maxValue m.max),
           max := maxValue }

/-- Per-pixel rescale of `PPM.SetMaxValue`. -/
def scalePixel (maxValue oldMax : Nat) (p : Pixel) : Pixel :=
  ⟨scaleU8 p.R maxValue oldMax, scaleU8 p.G maxValue oldMax, scaleU8 p.B maxValue oldMax⟩

/-- `PPM.SetMaxValue`: rescale every channel, then store the new max. -/
def PPM.SetMaxValue (m : PPM) (maxValue : Nat) : PPM :=
  { m with data := m.data.map (fun r => r.map (scalePixel maxValue m.max)),
           max := maxValue }

/-- Replace sample `(x, y)` of a rectangular buffer (row `y`, column `x`). -/
def setSample (data : List (List α)) (x y : Nat) (v : α) : List (List α) :=
  data.set y ((data.getD y []).set x v)

/-- `PGM.Set`: bounds-checked against `width`/`height`, silently doing
nothing out of range. -/
def PGM.Set (m : PGM) (x y : Int) (v : Nat) : PGM :=
  if 0 ≤ x ∧ x < m.width ∧ 0 ≤ y ∧ y < m.height then
    { m with data := setSample m.data x.toNat y.toNat v }
  else m

/-- `PBM.Set`: no bounds check at all; `pbm.data[y][x] = value` panics
(`none`) whenever `y` is outside the data slice or `x` outside row `y`. -/
def PBM.Set (m : PBM) (x y : Int) (v : Bool) : Option PBM :=
  if 0 ≤ y ∧ y.toNat < m.data.length ∧ 0 ≤ x ∧ x.toNat < (m.data.getD y.toNat []).length then
    some { m with data := setSample m.data x.toNat y.toNat v }
  else none

/-- `PPM.Set`: bounds-checked against `width`/`height`, panicking
(`none`) out of range (`panic("Index out of bounds")`). -/
def PPM.Set (m : PPM) (x y : Int) (v : Pixel) : Option PPM :=
  if x < 0 ∨ x ≥ m.width ∨ y < 0 ∨ y ≥ m.height then none
  else some { m with data := setSample m.data x.toNat y.toNat v }

/-- `PPM.SetPixel`: bounds-checked against `width`/`height`, silently
doing nothing out of range. -/
def PPM.SetPixel (m : PPM) (p : Point) (c : Pixel) : PPM :=
  if 0 ≤ p.X ∧ p.X < m.width ∧ 0 ≤ p.Y ∧ p.Y < m.height then
    { m with data := setSample m.data p.X.toNat p.Y.toNat c }
  else m

/-- the lowercase raster primitive `setPixel`: bounds-checked against
`width`/`height`, silently doing nothing out of range. -/
def PPM.setPixel (m : PPM) (x y : Int) (c : Pixel) : PPM :=
  if 0 ≤ x ∧ x < m.width ∧ 0 ≤ y ∧ y < m.height then
    { m with data := setSample m.data x.toNat y.toNat c }
  else m

/-! ## Line drawing (`DrawLine`) -/

/-- the `abs` helper of `ppm.go`. -/
def goAbs (x : Int) : Int :=
  if x < 0 then -x else x

/-- One iteration of `DrawLine`'s loop after the plot and the endpoint
check: `e2 := 2*err`; step x when `e2 > -dy`, step y when `e2 < dx`. -/
def bresStep (dx dy sx sy : Int) : Int × Int × Int → Int × Int × Int
  | (x, y, err) =>
    let e2 := 2 * err
    let p1 := if e2 > -dy then (err - dy, x + sx) else (err, x)
    let p2 := if e2 < dx then (p1.1 + dx, y + sy) else (p1.1, y)
    (p1.2, p2.2, p2.1)

/-- The lattice points `DrawLine`'s loop visits (plot, break at the
endpoint, step).  The loop of the source is unbounded; the fuel is an
artificial bound shown sufficient by `drawLineLoop_reaches` below, so
the truncating base case is never taken from `drawLinePoints`. -/
def drawLineLoop (dx dy sx sy x2 y2 : Int) : Nat → Int × Int × Int → List Point
  | 0, _ => []
  | fuel + 1, (x, y, err) =>
    ⟨x, y⟩ ::
      (if x = x2 ∧ y = y2 then []
       else drawLineLoop dx dy sx sy x2 y2 fuel (bresStep dx dy sx sy (x, y, err)))

/-- The visited points of `DrawLine(p1, p2)`: `dx = |x2-x1|`,
`dy = |y2-y1|`, step signs from coordinate order, initial error
`dx - dy`. -/
def drawLinePoints (p1 p2 : Point) : List Point :=
  let dx := goAbs (p2.X - p1.X)
  let dy := goAbs (p2.Y - p1.Y)
  let sx : Int := if p1.X < p2.X then 1 else -1
  let sy : Int := if p1.Y < p2.Y then 1 else -1
  drawLineLoop dx dy sx sy p2.X p2.Y (dx + dy + 1).toNat (p1.X, p1.Y, dx - dy)

/-- `PPM.DrawLine`: each visited point is plotted through `SetPixel`.
The loop's control flow never reads the canvas, so painting the
collected points in visit order is the loop's exact effect. -/
def PPM.DrawLine (m : PPM) (p1 p2 : Point) (c : Pixel) : PPM :=
  (drawLinePoints p1 p2).foldl (fun im pt => im.SetPixel pt c) m

/-! ## Rectangles -/

/-- `PPM.DrawRectangle`: four border lines with corners `(x, y)`,
`(x+w, y)`, `(x+w, y+h)`, `(x, y+h)`. -/
def PPM.DrawRectangle (m : PPM) (p1 : Point) (width height : Int) (c : Pixel) : PPM :=
  let p2 : Point := ⟨p1.X + width, p1.Y⟩
  let p3 : Point := ⟨p1.X + width, p1.Y + height⟩
  let p4 : Point := ⟨p1.X, p1.Y + height⟩
  (((m.DrawLine p1 p2 c).DrawLine p2 p3 c).DrawLine p3 p4 c).DrawLine p4 p1 c

/-- The loop of `DrawFilledRectangle`: draw a border of the current
width at the current origin, then shrink the width and shift the origin
right, until the width is exhausted. -/
def drawFilledRectLoop (px py height : Int) (c : Pixel) : Nat → Int → PPM → PPM
  | 0, _, m => m
  | n + 1, w, m =>
    drawFilledRectLoop (px + 1) py height c n (w - 1) (m.DrawRectangle ⟨px, py⟩ w height c)

/-- `PPM.DrawFilledRectangle`: nothing for non-positive extents, else
`width` nested border rectangles. -/
def PPM.DrawFilledRectangle (m : PPM) (p1 : Point) (width height : Int) (c : Pixel) : PPM :=
  if width ≤ 0 ∨ height ≤ 0 then m
  else drawFilledRectLoop p1.X p1.Y height c width.toNat width m

/-! ## Polygon scan fill (`DrawFilledPolygon`)

The per-edge x interpolation of the source walks a `float64`
accumulator `x := start.X; x += slope` with
`slope = (end.X-start.X)/(end.Y-start.Y)` a quotient of two integers;
the embedding computes the exact rational `start.X + k * slope` by
integer arithmetic instead, and `int(x + 0.5)` as the
toward-zero-truncated quotient `(2*(start.X*den + k*num) + den) tdiv
(2*den)`.  A horizontal edge divides by zero in Go (an infinite or NaN
slope), but its single loop iteration appends `int(float64(start.X)+0.5)`
before the poisoned accumulator is ever read, so that value is taken
directly in that case. -/

/-- The x-intersections one edge contributes, one per scanline from the
lower-y endpoint to the higher-y endpoint: `int(x + 0.5)` with
`x = start.X + k * slope`, truncation toward zero. -/
def edgeXs (s e : Point) : List Int :=
  let num := e.X - s.X
  let den := e.Y - s.Y
  (List.range (den + 1).toNat).map fun (k : Nat) =>
    if den = 0 then Int.tdiv (2 * s.X + 1) 2
    else Int.tdiv (2 * (s.X * den + (k : Int) * num) + den) (2 * den)

/-- Append one value to row `i` of the per-scanline lists. -/
def appendAt (xss : List (List Int)) (i : Nat) (v : Int) : List (List Int) :=
  xss.set i (xss.getD i [] ++ [v])

/-- Process one polygon edge: order its endpoints by y, then append its
interpolated x-intersections to the rows `start.Y - minY`, …,
`end.Y - minY` in scanline order. -/
def addEdge (minY : Int) (xss : List (List Int)) (p1 p2 : Point) : List (List Int) :=
  let s := if p1.Y ≤ p2.Y then p1 else p2
  let e := if p1.Y ≤ p2.Y then p2 else p1
  ((edgeXs s e).enum.foldl (fun acc kv =>
    appendAt acc (s.Y + kv.1 - minY).toNat kv.2) xss)

/-- the source's running minimum of the vertices' y values. -/
def polyMinY (points : List Point) : Int :=
  points.foldl (fun acc p => if p.Y < acc then p.Y else acc) (points.getD 0 ⟨0, 0⟩).Y

/-- the source's running maximum of the vertices' y values. -/
def polyMaxY (points : List Point) : Int :=
  points.foldl (fun acc p => if acc < p.Y then p.Y else acc) (points.getD 0 ⟨0, 0⟩).Y

/-- The edge table `xco`: starting from `maxY - minY + 1` empty rows,
process the edges `points[i] → points[(i+1) % len]` in order. -/
def buildXco (points : List Point) (minY maxY : Int) : List (List Int) :=
  (List.range points.length).foldl
    (fun xss i =>
      addEdge minY xss (points.getD i ⟨0, 0⟩) (points.getD ((i + 1) % points.length) ⟨0, 0⟩))
    (List.replicate (maxY - minY + 1).toNat [])

/-- The even-row span loop `for j := 0; j < len-1; j += 2`: spans
between entries 0–1, 2–3, …. -/
def drawPairsEven (y : Int) (c : Pixel) : List Int → PPM → PPM
  | a :: b :: rest, m => drawPairsEven y c rest (m.DrawLine ⟨a, y⟩ ⟨b, y⟩ c)
  | _, m => m

/-- The odd-row span loop `for j := 0; j < len-1; j += 1`: spans
between every two adjacent entries 0–1, 1–2, 2–3, …. -/
def drawPairsAll (y : Int) (c : Pixel) : List Int → PPM → PPM
  | a :: b :: rest, m => drawPairsAll y c (b :: rest) (m.DrawLine ⟨a, y⟩ ⟨b, y⟩ c)
  | _, m => m

/-- The row loop `for i := 0; i < len(xco); i += 2`: row `i` is drawn
with the even-row pairing and row `i+1` (when present) with the
adjacent pairing. -/
def drawSpanRows (c : Pixel) : List (List Int) → Int → PPM → PPM
  | [], _, m => m
  | [xs], y, m => drawPairsEven y c xs m
  | xs :: xs1 :: rest, y, m =>
    drawSpanRows c rest (y + 2) (drawPairsAll (y + 1) c xs1 (drawPairsEven y c xs m))

/-- `PPM.DrawFilledPolygon`: build the edge table, then draw the spans.
(The source indexes `points[0]` unconditionally, so an empty vertex
list panics in Go; theorems assume a nonempty list.) -/
def PPM.DrawFilledPolygon (m : PPM) (points : List Point) (c : Pixel) : PPM :=
  let minY := polyMinY points
  let maxY := polyMaxY points
  drawSpanRows c (buildXco points minY maxY) minY m

/-! ## Definitions written from the spec's words

These follow the claims' wording, for comparison with the embedded
code.  They are not translations of the source. -/

/-- Modelled from the spec (claim C1's wording): a color `Invert` whose
channels become `maxValue - channel` using the image's own stored max. -/
def ppmInvertSpec (m : PPM) : PPM :=
  { m with data := m.data.map (fun r => r.map fun p =>
      (⟨m.max - p.R, m.max - p.G, m.max - p.B⟩ : Pixel)) }

/-- Modelled from the spec (claim C2's wording): a direct pixel setter
that signals an `OutOfBounds` error condition (here `none`) for any
coordinate outside `[0,width) × [0,height)` instead of clipping. -/
def setPixelSignalling (m : PPM) (p : Point) (c : Pixel) : Option PPM :=
  if 0 ≤ p.X ∧ p.X < m.width ∧ 0 ≤ p.Y ∧ p.Y < m.height then
    some { m with data := setSample m.data p.X.toNat p.Y.toNat c }
  else none

/-- Modelled from the spec (claim C5's wording): span drawing that on
*every* scanline pairs up consecutive entries 0–1, 2–3, …. -/
def drawSpanRowsPaired (c : Pixel) : List (List Int) → Int → PPM → PPM
  | [], _, m => m
  | xs :: rest, y, m => drawSpanRowsPaired c rest (y + 1) (drawPairsEven y c xs m)

/-- Modelled from the spec (claim C5's wording): the whole filled
polygon with the claimed everywhere-paired span phase, over the same
edge table as the code. -/
def drawFilledPolygonSpec (m : PPM) (points : List Point) (c : Pixel) : PPM :=
  let minY := polyMinY points
  let maxY := polyMaxY points
  drawSpanRowsPaired c (buildXco points minY maxY) minY m

/-- Span drawing with the scanline parity explicit (`odd = true` for
rows at an odd offset from the top of the table): even-offset rows pair
entries 0–1, 2–3, …; odd-offset rows span every two adjacent entries.
This is the amended description of the code's span phase. -/
def drawSpanRowsParity (c : Pixel) : List (List Int) → Bool → Int → PPM → PPM
  | [], _, _, m => m
  | xs :: rest, odd, y, m =>
    drawSpanRowsParity c rest (!odd) (y + 1)
      (if odd then drawPairsAll y c xs m else drawPairsEven y c xs m)

/-- The ordered endpoints of edge `i` of the polygon (lower y first),
as the fill loop computes them. -/
def edgeOf (points : List Point) (i : Nat) : Point × Point :=
  let p1 := points.getD i ⟨0, 0⟩
  let p2 := points.getD ((i + 1) % points.length) ⟨0, 0⟩
  if p1.Y ≤ p2.Y then (p1, p2) else (p2, p1)

/-- The entries edge `i` contributes to scanline `s` (offset from the
top of the table): its interpolated x-intersection when the edge covers
that scanline, nothing otherwise. -/
def edgeContrib (points : List Point) (minY : Int) (i : Nat) (s : Nat) : List Int :=
  let se := edgeOf points i
  ((edgeXs se.1 se.2).enum.filter (fun kv => (se.1.Y + kv.1 - minY).toNat = s)).map (·.2)

/-- Modelled from the spec (claim C5's wording): scanline `s`'s list is
the edges' contributions concatenated in edge-processing order, not
sorted by x. -/
def xcoSpec (points : List Point) (minY : Int) (s : Nat) : List Int :=
  ((List.range points.length).map fun i => edgeContrib points minY i s).flatten

/-- The Bresenham error term the claimed update rule maintains at
lattice point `q` of the line from `p1` to `p2`: after `a` x-steps and
`b` y-steps the error is `dx - dy - a*dy + b*dx`, and `a`, `b` can be
read off `q` through the step signs. -/
def bresErrAt (p1 p2 q : Point) : Int :=
  let dx := goAbs (p2.X - p1.X)
  let dy := goAbs (p2.Y - p1.Y)
  let sx : Int := if p1.X < p2.X then 1 else -1
  let sy : Int := if p1.Y < p2.Y then 1 else -1
  dx - dy - (sx * (q.X - p1.X)) * dy + (sy * (q.Y - p1.Y)) * dx

/-- Modelled from the spec (claim C9's wording): the successor of
lattice point `q` under the stated update rule — with `e2 = 2·err`,
step x when `e2 > -dy` and step y when `e2 < dx`, both possibly at
once. -/
def bresNextPoint (p1 p2 q : Point) : Point :=
  let dx := goAbs (p2.X - p1.X)
  let dy := goAbs (p2.Y - p1.Y)
  let sx : Int := if p1.X < p2.X then 1 else -1
  let sy : Int := if p1.Y < p2.Y then 1 else -1
  let e2 := 2 * bresErrAt p1 p2 q
  ⟨q.X + (if e2 > -dy then sx else 0), q.Y + (if e2 < dx then sy else 0)⟩

/-! ## Lemmas: decimal digits -/

/-- `packByte` with its eight bits as explicit arguments, in the exact
accumulation order of the fold. -/
def packExpr (x0 x1 x2 x3 x4 x5 x6 x7 : Bool) : Nat :=
  let a0 := if x0 then 0 + 2 ^ (7 - 0) else 0
  let a1 := if x1 then a0 + 2 ^ (7 - 1) else a0
  let a2 := if x2 then a1 + 2 ^ (7 - 2) else a1
  let a3 := if x3 then a2 + 2 ^ (7 - 3) else a2
  let a4 := if x4 then a3 + 2 ^ (7 - 4) else a3
  let a5 := if x5 then a4 + 2 ^ (7 - 5) else a4
  let a6 := if x6 then a5 + 2 ^ (7 - 6) else a5
  if x7 then a6 + 2 ^ (7 - 7) else a6

/-- The 3-per-pixel channel tokens of one P3 text row, in stream order. -/
def p3Tokens (wN : Nat) (row : List Pixel) : List ByteStream :=
  ((List.range wN).map fun x =>
    [natDecimal (row.getD x ⟨0, 0, 0⟩).R, natDecimal (row.getD x ⟨0, 0, 0⟩).G,
      natDecimal (row.getD x ⟨0, 0, 0⟩).B]).flatten

theorem natDecimalAux_zero (fuel : Nat) (acc : ByteStream) :
    natDecimalAux fuel 0 acc = acc := by
  cases fuel <;> rfl

theorem natDecimalAux_fuel (n : Nat) :
    ∀ fuel acc, n ≤ fuel → natDecimalAux fuel n acc = natDecimalAux n n [] ++ acc := by
  induction n using Nat.strong_induction_on with
  | _ n ih =>
    intro fuel acc hf
    match n, fuel with
    | 0, fuel => simp [natDecimalAux_zero]
    | n + 1, fuel + 1 =>
      have hdiv : (n + 1) / 10 < n + 1 := Nat.div_lt_self (Nat.succ_pos n) (by omega)
      rw [natDecimalAux, ih ((n + 1) / 10) hdiv fuel _ (by omega)]
      conv_rhs => rw [natDecimalAux, ih ((n + 1) / 10) hdiv n _ (by omega)]
      simp

/-- The digits of a positive number, with an explicit final digit. -/
theorem natDecimalAux_succ (n : Nat) :
    natDecimalAux (n + 1) (n + 1) []
      = natDecimalAux ((n + 1) / 10) ((n + 1) / 10) [] ++ [48 + (n + 1) % 10] := by
  have hdiv : (n + 1) / 10 < n + 1 := Nat.div_lt_self (Nat.succ_pos n) (by omega)
  rw [natDecimalAux, natDecimalAux_fuel ((n + 1) / 10) n _ (by omega)]

theorem natDecimal_mem (n : Nat) : ∀ b ∈ natDecimal n, 48 ≤ b ∧ b ≤ 57 := by
  unfold natDecimal
  split
  · intro b hb; simp at hb; omega
  · induction n using Nat.strong_induction_on with
    | _ n ih =>
      intro b hb
      match n with
      | 0 => simp [natDecimalAux_zero] at hb
      | n + 1 =>
        rw [natDecimalAux_succ] at hb
        rcases List.mem_append.1 hb with h | h
        · rcases Nat.eq_zero_or_pos ((n + 1) / 10) with h0 | h0
          · rw [h0, natDecimalAux_zero] at h; simp at h
          · exact ih ((n + 1) / 10) (Nat.div_lt_self (Nat.succ_pos n) (by omega)) (by omega) b h
        · simp at h
          have := Nat.mod_lt (n + 1) (y := 10) (by omega)
          omega

theorem natDecimal_ne_nil (n : Nat) : natDecimal n ≠ [] := by
  unfold natDecimal
  split
  · simp
  · match n with
    | 0 => simp_all
    | n + 1 => rw [natDecimalAux_succ]; simp

theorem foldl_digits_append (a : Nat) (l1 l2 : ByteStream) :
    (l1 ++ l2).foldl (fun a b => a * 10 + (b - 48)) a
      = l2.foldl (fun a b => a * 10 + (b - 48)) (l1.foldl (fun a b => a * 10 + (b - 48)) a) := by
  simp [List.foldl_append]

theorem foldl_digitsOf (n : Nat) :
    ∀ a, (natDecimalAux n n []).foldl (fun a b => a * 10 + (b - 48)) a
      = a * 10 ^ (natDecimalAux n n []).length + n := by
  induction n using Nat.strong_induction_on with
  | _ n ih =>
    intro a
    match n with
    | 0 => simp [natDecimalAux_zero]
    | n + 1 =>
      have hdiv : (n + 1) / 10 < n + 1 := Nat.div_lt_self (Nat.succ_pos n) (by omega)
      rw [natDecimalAux_succ, foldl_digits_append, ih ((n + 1) / 10) hdiv a]
      simp only [List.foldl_cons, List.foldl_nil, List.length_append, List.length_cons,
        List.length_nil]
      have h10 : 10 * ((n + 1) / 10) + (n + 1) % 10 = n + 1 := Nat.div_add_mod (n + 1) 10
      ring_nf
      omega

theorem digitsVal_natDecimal (n : Nat) : digitsVal (natDecimal n) = n := by
  unfold natDecimal digitsVal
  split
  · simp_all
  · rw [foldl_digitsOf n 0]; simp

theorem isSpaceByte_of_digit {b : Nat} (h : 48 ≤ b ∧ b ≤ 57) : isSpaceByte b = false := by
  simp only [isSpaceByte, Bool.or_eq_false_iff, beq_eq_false_iff_ne, ne_eq]
  omega

theorem isDigitByte_of_digit {b : Nat} (h : 48 ≤ b ∧ b ≤ 57) : isDigitByte b = true := by
  simp only [isDigitByte, Bool.and_eq_true, decide_eq_true_eq]
  omega

/-! ## Lemmas: scanning -/

theorem takeWhile_digits_natDecimal (n : Nat) (r : ByteStream)
    (hr : isDigitByte (r.headD 0) = false) :
    (natDecimal n ++ r).takeWhile isDigitByte = natDecimal n := by
  rw [List.takeWhile_append_of_pos (fun b hb => isDigitByte_of_digit (natDecimal_mem n b hb))]
  cases r with
  | nil => simp
  | cons b t => simp only [List.headD_cons] at hr; simp [List.takeWhile_cons, hr]

theorem dropWhile_digits_natDecimal (n : Nat) (r : ByteStream)
    (hr : isDigitByte (r.headD 0) = false) :
    (natDecimal n ++ r).dropWhile isDigitByte = r := by
  rw [List.dropWhile_append_of_pos (fun b hb => isDigitByte_of_digit (natDecimal_mem n b hb))]
  cases r with
  | nil => simp
  | cons b t => simp only [List.headD_cons] at hr; simp [List.dropWhile_cons, hr]

theorem dropWhile_space_all_append (sp t : ByteStream) (hsp : ∀ b ∈ sp, isSpaceByte b = true) :
    (sp ++ t).dropWhile isSpaceByte = t.dropWhile isSpaceByte :=
  List.dropWhile_append_of_pos hsp

theorem dropWhile_space_natDecimal (n : Nat) (r : ByteStream) :
    (natDecimal n ++ r).dropWhile isSpaceByte = natDecimal n ++ r := by
  obtain ⟨b, t, hbt⟩ : ∃ b t, natDecimal n = b :: t := by
    cases h : natDecimal n with
    | nil => exact absurd h (natDecimal_ne_nil n)
    | cons b t => exact ⟨b, t, rfl⟩
  have hb : 48 ≤ b ∧ b ≤ 57 := natDecimal_mem n b (by rw [hbt]; simp)
  rw [hbt]
  simp [List.dropWhile_cons, isSpaceByte_of_digit hb]

theorem headD_natDecimal_digit (n : Nat) (r : ByteStream) :
    48 ≤ (natDecimal n ++ r).headD 0 ∧ (natDecimal n ++ r).headD 0 ≤ 57 := by
  obtain ⟨b, t, hbt⟩ : ∃ b t, natDecimal n = b :: t := by
    cases h : natDecimal n with
    | nil => exact absurd h (natDecimal_ne_nil n)
    | cons b t => exact ⟨b, t, rfl⟩
  have hb := natDecimal_mem n b (by rw [hbt]; simp)
  rw [hbt]; simpa using hb

theorem scanIntCore_natDecimal (n : Nat) (neg : Bool) (r : ByteStream)
    (hr : isDigitByte (r.headD 0) = false) :
    scanIntCore (natDecimal n ++ r) neg
      = some (if neg then -(n : Int) else (n : Int), r) := by
  unfold scanIntCore
  rw [takeWhile_digits_natDecimal n r hr, dropWhile_digits_natDecimal n r hr]
  simp [natDecimal_ne_nil n, digitsVal_natDecimal n]

theorem scanInt_natDecimal (n : Nat) (sp r : ByteStream)
    (hsp : ∀ b ∈ sp, isSpaceByte b = true) (hr : isDigitByte (r.headD 0) = false) :
    scanInt (sp ++ (natDecimal n ++ r)) = some ((n : Int), r) := by
  unfold scanInt
  rw [dropWhile_space_all_append sp _ hsp, dropWhile_space_natDecimal n r]
  have hd := headD_natDecimal_digit n r
  rw [if_neg (by omega), if_neg (by omega), scanIntCore_natDecimal n false r hr]
  simp

theorem scanInt_intDecimal (w : Int) (sp r : ByteStream)
    (hsp : ∀ b ∈ sp, isSpaceByte b = true) (hr : isDigitByte (r.headD 0) = false) :
    scanInt (sp ++ (intDecimal w ++ r)) = some (w, r) := by
  unfold intDecimal
  split
  · next hneg =>
    unfold scanInt
    rw [show (45 :: natDecimal w.natAbs) ++ r = 45 :: (natDecimal w.natAbs ++ r) by simp,
      dropWhile_space_all_append sp _ hsp]
    have h45 : isSpaceByte 45 = false := by decide
    rw [List.dropWhile_cons]
    simp only [h45, Bool.false_eq_true, if_false, List.headD_cons, List.tail_cons, if_true,
      if_pos trivial]
    rw [scanIntCore_natDecimal _ true r hr]
    have habs : ((w.natAbs : Nat) : Int) = -w := by omega
    simp [habs]
  · next hpos =>
    rw [scanInt_natDecimal w.natAbs sp r hsp hr]
    have habs : ((w.natAbs : Nat) : Int) = w := by omega
    simp [habs]

theorem parseDims_dimsLine (w h : Int) :
    parseDims (intDecimal w ++ [32] ++ intDecimal h) = some (w, h) := by
  unfold parseDims
  have h1 := scanInt_intDecimal w [] (32 :: intDecimal h) (by simp)
    (by simp only [List.headD_cons]; decide)
  simp only [List.nil_append] at h1
  rw [show intDecimal w ++ [32] ++ intDecimal h = intDecimal w ++ (32 :: intDecimal h) by
    simp]
  rw [h1]
  have h2 := scanInt_intDecimal h [32] [] (by decide) (by decide)
  simp only [List.append_nil, List.singleton_append] at h2
  simp only [h2]

theorem parseUint8_natDecimal (v : Nat) (hv : v ≤ 255) :
    parseUint8 (natDecimal v) = some v := by
  have hd : (natDecimal v).dropWhile isSpaceByte = natDecimal v := by
    have := dropWhile_space_natDecimal v []
    simpa using this
  have ht : (natDecimal v).takeWhile isDigitByte = natDecimal v := by
    have := takeWhile_digits_natDecimal v [] (by decide)
    simpa using this
  simp only [parseUint8, scanUint8, hd, ht, digitsVal_natDecimal]
  simp [natDecimal_ne_nil v, hv]

/-! ## Lemmas: line reading and trimming -/

theorem readStringNL_append (l r : ByteStream) (h : 10 ∉ l) :
    readStringNL (l ++ 10 :: r) = some (l ++ [10], r) := by
  induction l with
  | nil => simp [readStringNL]
  | cons b t ih =>
    have hb : b ≠ 10 := by intro e; exact h (by simp [e])
    simp only [List.cons_append, readStringNL, hb, if_false, List.append_eq]
    rw [ih (by intro e; exact h (by simp [e]))]

/-- a list whose first byte is not whitespace is untouched by a
whitespace `dropWhile` (the empty list's default head, byte 0, is not
whitespace either). -/
theorem dropWhile_space_id (l : ByteStream) (h : isSpaceByte (l.headD 0) = false) :
    l.dropWhile isSpaceByte = l := by
  cases l with
  | nil => rfl
  | cons b t =>
    simp only [List.headD_cons] at h
    simp [List.dropWhile_cons, h]

theorem headD_reverse (l : ByteStream) : l.reverse.headD 0 = l.getLastD 0 := by
  rw [List.getLastD_eq_getLast?, List.getLast?_eq_head?_reverse]
  cases l.reverse with
  | nil => rfl
  | cons b t => rfl

theorem trimSpace_append_newline (l : ByteStream) (hne : l ≠ [])
    (hh : isSpaceByte (l.headD 0) = false) (hl : isSpaceByte (l.getLastD 0) = false) :
    trimSpace (l ++ [10]) = l := by
  unfold trimSpace
  have h1 : (l ++ [10]).headD 0 = l.headD 0 := by
    cases l with
    | nil => exact absurd rfl hne
    | cons b t => rfl
  rw [dropWhile_space_id (l ++ [10]) (by rw [h1]; exact hh)]
  rw [List.reverse_append, show ([10] : ByteStream).reverse = [10] from rfl,
    show ([10] : ByteStream) ++ l.reverse = 10 :: l.reverse from rfl,
    List.dropWhile_cons]
  simp only [show isSpaceByte 10 = true from rfl, if_true]
  rw [dropWhile_space_id l.reverse (by rw [headD_reverse]; exact hl), List.reverse_reverse]

/-! ## Lemmas: token splitting -/

theorem fieldsAux_run (t : ByteStream) (ht : ∀ b ∈ t, isSpaceByte b = false) :
    ∀ (s cur : ByteStream), fieldsAux (t ++ s) cur = fieldsAux s (t.reverse ++ cur) := by
  induction t with
  | nil => intro s cur; simp
  | cons b t ih =>
    intro s cur
    have hb : isSpaceByte b = false := ht b (by simp)
    simp only [List.cons_append, fieldsAux, hb, Bool.false_eq_true, if_false, List.append_eq]
    rw [ih (fun x hx => ht x (by simp [hx])) s (b :: cur)]
    simp

theorem fields_token_append (t s : ByteStream) (hne : t ≠ [])
    (ht : ∀ b ∈ t, isSpaceByte b = false)
    (hs : s = [] ∨ isSpaceByte (s.headD 0) = true) :
    fields (t ++ s) = t :: fields s := by
  unfold fields
  rw [fieldsAux_run t ht s []]
  cases s with
  | nil =>
    simp only [fieldsAux, List.append_nil]
    rw [if_neg (by simpa using hne)]
    simp
  | cons b s' =>
    have hb : isSpaceByte b = true := by
      rcases hs with h | h
      · exact absurd h (by simp)
      · simpa using h
    simp only [fieldsAux, hb, if_true, List.append_nil]
    rw [if_neg (by simpa using hne)]
    simp

theorem fields_space_cons (b : Nat) (s : ByteStream) (hb : isSpaceByte b = true) :
    fields (b :: s) = fields s := by
  unfold fields
  simp [fieldsAux, hb]

/-- Splitting a single-space-joined newline-terminated token line
recovers the tokens (each token nonempty and whitespace-free). -/
theorem fields_joinSep : ∀ (toks : List ByteStream),
    (∀ t ∈ toks, t ≠ [] ∧ ∀ b ∈ t, isSpaceByte b = false) →
    fields (joinSep [32] toks ++ [10]) = toks
  | [], _ => by
    simp only [joinSep, List.nil_append]
    rw [fields_space_cons 10 [] (by decide)]
    rfl
  | [t], h => by
    simp only [joinSep]
    rw [fields_token_append t [10] (h t (by simp)).1 (h t (by simp)).2 (by right; rfl)]
    rw [fields_space_cons 10 [] (by decide)]
    rfl
  | t :: t' :: ts, h => by
    simp only [joinSep]
    rw [show (t ++ [32] ++ joinSep [32] (t' :: ts)) ++ [10]
        = t ++ (32 :: (joinSep [32] (t' :: ts) ++ [10])) by simp]
    rw [fields_token_append t _ (h t (by simp)).1 (h t (by simp)).2 (by right; rfl)]
    rw [fields_space_cons 32 _ (by decide)]
    rw [fields_joinSep (t' :: ts) (fun x hx => h x (List.mem_cons_of_mem t hx))]

/-- Splitting a line of space-terminated tokens (the P3 row shape
`"R G B R G B "` plus newline) recovers the tokens. -/
theorem fields_spaced : ∀ (toks : List ByteStream),
    (∀ t ∈ toks, t ≠ [] ∧ ∀ b ∈ t, isSpaceByte b = false) →
    fields ((toks.map (· ++ [32])).flatten ++ [10]) = toks
  | [], _ => by
    simp only [List.map_nil, List.flatten_nil, List.nil_append]
    rw [fields_space_cons 10 [] (by decide)]
    rfl
  | t :: ts, h => by
    simp only [List.map_cons, List.flatten_cons]
    rw [show (t ++ [32]) ++ (ts.map (· ++ [32])).flatten ++ [10]
        = t ++ (32 :: ((ts.map (· ++ [32])).flatten ++ [10])) by simp]
    rw [fields_token_append t _ (h t (by simp)).1 (h t (by simp)).2 (by right; rfl)]
    rw [fields_space_cons 32 _ (by decide)]
    rw [fields_spaced ts (fun x hx => h x (by simp [hx]))]

/-! ## Lemmas: the token-indexed row fills of the P1/P2 branches -/

theorem fillBoolRow_ok (width : Int) (y : Nat) :
    ∀ (toks : List ByteStream) (row : List Bool) (x : Nat),
      (row.length : Int) = width → x + toks.length ≤ row.length →
      fillBoolRow width y row x toks
        = .ok (row.take x ++ toks.map (fun f => decide (f = [49])) ++ row.drop (x + toks.length)) := by
  intro toks
  induction toks with
  | nil =>
    intro row x hlen hx
    simp [fillBoolRow]
  | cons f fs ih =>
    intro row x hlen hx
    simp only [List.length_cons] at hx
    have hxlt : x < row.length := by omega
    rw [fillBoolRow, if_neg (by omega)]
    rw [ih (row.set x (decide (f = [49]))) (x + 1) (by simpa using hlen) (by simp; omega)]
    have hset := List.set_eq_take_cons_drop (decide (f = [49])) hxlt
    have htake : (row.set x (decide (f = [49]))).take (x + 1) = row.take x ++ [decide (f = [49])] := by
      rw [hset]
      rw [show x + 1 = (row.take x).length + 1 by simp [List.length_take]; omega]
      rw [List.take_append 1]
      simp
    have hdrop : (row.set x (decide (f = [49]))).drop (x + 1 + fs.length)
        = row.drop (x + (fs.length + 1)) := by
      rw [hset]
      rw [show x + 1 + fs.length = (row.take x).length + (1 + fs.length) by
        simp [List.length_take]; omega]
      rw [List.drop_append (1 + fs.length)]
      rw [show 1 + fs.length = fs.length + 1 by omega]
      simp only [List.drop_succ_cons]
      rw [List.drop_drop]
      congr 1
      omega
    rw [htake, hdrop]
    simp

theorem fillBoolRow_extra (width : Int) (y : Nat) :
    ∀ (toks : List ByteStream) (row : List Bool) (x : Nat),
      (x : Int) ≤ width → width < (x : Int) + toks.length →
      fillBoolRow width y row x toks = .error (.extraTokens y) := by
  intro toks
  induction toks with
  | nil =>
    intro row x h1 h2
    simp only [List.length_nil] at h2
    omega
  | cons f fs ih =>
    intro row x h1 h2
    by_cases hge : (x : Int) ≥ width
    · rw [fillBoolRow, if_pos hge]
    · rw [fillBoolRow, if_neg hge]
      apply ih _ (x + 1) (by omega)
      simp only [List.length_cons] at h2
      push_cast at h2 ⊢
      omega

theorem fillNatRow_ok (width : Int) (y : Nat) :
    ∀ (vals : List Nat) (row : List Nat) (x : Nat),
      (row.length : Int) = width → x + vals.length ≤ row.length → (∀ v ∈ vals, v ≤ 255) →
      fillNatRow width y row x (vals.map natDecimal)
        = .ok (row.take x ++ vals ++ row.drop (x + vals.length)) := by
  intro vals
  induction vals with
  | nil =>
    intro row x hlen hx _
    simp [fillNatRow]
  | cons v vs ih =>
    intro row x hlen hx hv
    simp only [List.length_cons] at hx
    have hxlt : x < row.length := by omega
    simp only [List.map_cons]
    rw [fillNatRow, if_neg (by omega), parseUint8_natDecimal v (hv v (by simp))]
    change fillNatRow width y (row.set x v) (x + 1) (List.map natDecimal vs) = _
    rw [ih (row.set x v) (x + 1) (by simpa using hlen) (by simp; omega)
      (fun w hw => hv w (by simp [hw]))]
    have hset := List.set_eq_take_cons_drop v hxlt
    have htake : (row.set x v).take (x + 1) = row.take x ++ [v] := by
      rw [hset]
      rw [show x + 1 = (row.take x).length + 1 by simp [List.length_take]; omega]
      rw [List.take_append 1]
      simp
    have hdrop : (row.set x v).drop (x + 1 + vs.length) = row.drop (x + (vs.length + 1)) := by
      rw [hset]
      rw [show x + 1 + vs.length = (row.take x).length + (1 + vs.length) by
        simp [List.length_take]; omega]
      rw [List.drop_append (1 + vs.length)]
      rw [show 1 + vs.length = vs.length + 1 by omega]
      simp only [List.drop_succ_cons]
      rw [List.drop_drop]
      congr 1
      omega
    rw [htake, hdrop]
    simp

theorem fillNatRow_extra (width : Int) (y : Nat) :
    ∀ (vals : List Nat) (row : List Nat) (x : Nat),
      (x : Int) ≤ width → width < (x : Int) + vals.length → (∀ v ∈ vals, v ≤ 255) →
      fillNatRow width y row x (vals.map natDecimal) = .error (.extraTokens y) := by
  intro vals
  induction vals with
  | nil =>
    intro row x h1 h2 _
    simp only [List.length_nil] at h2
    omega
  | cons v vs ih =>
    intro row x h1 h2 hv
    by_cases hge : (x : Int) ≥ width
    · rw [List.map_cons, fillNatRow, if_pos hge]
    · rw [List.map_cons, fillNatRow, if_neg hge, parseUint8_natDecimal v (hv v (by simp))]
      apply ih _ (x + 1) (by omega) _ (fun w hw => hv w (by simp [hw]))
      simp only [List.length_cons] at h2
      push_cast at h2 ⊢
      omega

/-! ## Lemmas: row round trips -/

theorem range_map_getD {α : Type} (l : List α) (d : α) :
    (List.range l.length).map (fun x => l.getD x d) = l := by
  apply List.ext_getElem
  · simp
  · intro i h1 h2
    simp only [List.getElem_map, List.getElem_range, List.getD_eq_getElem?_getD]
    rw [List.getElem?_eq_getElem h2]
    rfl

theorem mem_joinSep (sep : ByteStream) :
    ∀ (toks : List ByteStream) (b : Nat), b ∈ joinSep sep toks →
      b ∈ sep ∨ ∃ t ∈ toks, b ∈ t
  | [], b, h => by simp [joinSep] at h
  | [t], b, h => by
    simp only [joinSep] at h
    right; exact ⟨t, by simp, h⟩
  | t :: t' :: ts, b, h => by
    simp only [joinSep, List.append_assoc, List.mem_append] at h
    rcases h with h | h | h
    · right; exact ⟨t, by simp, h⟩
    · left; exact h
    · rcases mem_joinSep sep (t' :: ts) b h with h | ⟨u, hu, hb⟩
      · left; exact h
      · right; exact ⟨u, List.mem_cons_of_mem t hu, hb⟩

theorem p1Row_tokens_wf (wN : Nat) (row : List Bool) :
    ∀ t ∈ (List.range wN).map (fun x => [if row.getD x false then 49 else 48]),
      t ≠ [] ∧ ∀ b ∈ t, isSpaceByte b = false := by
  intro t ht
  simp only [List.mem_map] at ht
  obtain ⟨x, _, rfl⟩ := ht
  constructor
  · split <;> simp
  · intro b hb
    split at hb <;> simp at hb <;> simp [hb, isSpaceByte]

theorem p1Row_no_newline (wN : Nat) (row : List Bool) :
    10 ∉ joinSep [32] ((List.range wN).map (fun x => [if row.getD x false then 49 else 48])) := by
  intro h
  rcases mem_joinSep _ _ _ h with h | ⟨t, ht, hb⟩
  · simp at h
  · obtain ⟨hne, hsp⟩ := p1Row_tokens_wf wN row t ht
    have := hsp 10 hb
    simp [isSpaceByte] at this

theorem readP1Rows_append (w : Int) (hw : 0 ≤ w) :
    ∀ (rows : List (List Bool)) (y : Nat) (rest : ByteStream),
      (∀ r ∈ rows, r.length = w.toNat) →
      readP1Rows w y rows.length ((rows.map (p1Row w.toNat)).flatten ++ rest)
        = .ok (rows, rest) := by
  intro rows
  induction rows with
  | nil => intro y rest _; simp [readP1Rows]
  | cons row rows ih =>
    intro y rest hlen
    have hrw : row.length = w.toNat := hlen row (by simp)
    simp only [List.map_cons, List.flatten_cons, List.length_cons]
    rw [readP1Rows]
    rw [show p1Row w.toNat row ++ (rows.map (p1Row w.toNat)).flatten ++ rest
        = joinSep [32] ((List.range w.toNat).map (fun x => [if row.getD x false then 49 else 48]))
          ++ 10 :: ((rows.map (p1Row w.toNat)).flatten ++ rest) by
      simp [p1Row]]
    have hline := readStringNL_append _
      ((rows.map (p1Row w.toNat)).flatten ++ rest) (p1Row_no_newline w.toNat row)
    have hfields := fields_joinSep _ (p1Row_tokens_wf w.toNat row)
    have hfill := fillBoolRow_ok w y
      ((List.range w.toNat).map (fun x => [if row.getD x false then 49 else 48]))
      (List.replicate w.toNat false) 0 (by simp; omega) (by simp)
    have hrec := ih (y + 1) rest (fun r hr => hlen r (List.mem_cons_of_mem row hr))
    have hconv : (((List.range w.toNat).map fun x => [if row.getD x false then 49 else 48]).map
        fun f => decide (f = [49])) = row := by
      rw [List.map_map]
      have hcomp : ((fun f => decide (f = [49])) ∘ fun x => [if row.getD x false then 49 else 48])
          = fun x => row.getD x false := by
        funext x
        by_cases hx : row.getD x false <;> simp [hx]
      rw [hcomp, ← hrw, range_map_getD]
    simp only [hline, hfields, hfill, hrec, List.take_zero, List.nil_append,
      List.length_map, List.length_range, Nat.zero_add, List.length_replicate]
    rw [show (List.replicate w.toNat false).drop w.toNat = [] by simp]
    simp only [List.append_nil]
    rw [hconv]

theorem getD_le_of_bound (row : List Nat) (x : Nat) (h : ∀ v ∈ row, v ≤ 255) :
    row.getD x 0 ≤ 255 := by
  by_cases hx : x < row.length
  · rw [List.getD_eq_getElem?_getD, List.getElem?_eq_getElem hx]
    exact h _ (List.getElem_mem hx)
  · rw [List.getD_eq_getElem?_getD, List.getElem?_eq_none (by omega)]
    simp

theorem p2Row_tokens_wf (wN : Nat) (row : List Nat) :
    ∀ t ∈ (List.range wN).map (fun x => natDecimal (row.getD x 0)),
      t ≠ [] ∧ ∀ b ∈ t, isSpaceByte b = false := by
  intro t ht
  simp only [List.mem_map] at ht
  obtain ⟨x, _, rfl⟩ := ht
  exact ⟨natDecimal_ne_nil _, fun b hb => isSpaceByte_of_digit (natDecimal_mem _ b hb)⟩

theorem p2Row_no_newline (wN : Nat) (row : List Nat) :
    10 ∉ joinSep [32] ((List.range wN).map (fun x => natDecimal (row.getD x 0))) := by
  intro h
  rcases mem_joinSep _ _ _ h with h | ⟨t, ht, hb⟩
  · simp at h
  · have := (p2Row_tokens_wf wN row t ht).2 10 hb
    simp [isSpaceByte] at this

theorem readP2Rows_append (w : Int) (hw : 0 ≤ w) :
    ∀ (rows : List (List Nat)) (y : Nat) (rest : ByteStream),
      (∀ r ∈ rows, r.length = w.toNat ∧ ∀ v ∈ r, v ≤ 255) →
      readP2Rows w y rows.length ((rows.map (p2Row w.toNat)).flatten ++ rest)
        = .ok (rows, rest) := by
  intro rows
  induction rows with
  | nil => intro y rest _; simp [readP2Rows]
  | cons row rows ih =>
    intro y rest hlen
    have hrw : row.length = w.toNat := (hlen row (by simp)).1
    have hrb : ∀ v ∈ row, v ≤ 255 := (hlen row (by simp)).2
    simp only [List.map_cons, List.flatten_cons, List.length_cons]
    rw [readP2Rows]
    rw [show p2Row w.toNat row ++ (rows.map (p2Row w.toNat)).flatten ++ rest
        = joinSep [32] ((List.range w.toNat).map (fun x => natDecimal (row.getD x 0)))
          ++ 10 :: ((rows.map (p2Row w.toNat)).flatten ++ rest) by
      simp [p2Row]]
    have hline := readStringNL_append _
      ((rows.map (p2Row w.toNat)).flatten ++ rest) (p2Row_no_newline w.toNat row)
    have hfields := fields_joinSep _ (p2Row_tokens_wf w.toNat row)
    have htoks : (List.range w.toNat).map (fun x => natDecimal (row.getD x 0))
        = ((List.range w.toNat).map (fun x => row.getD x 0)).map natDecimal := by
      rw [List.map_map]; rfl
    have hfill := fillNatRow_ok w y ((List.range w.toNat).map (fun x => row.getD x 0))
      (List.replicate w.toNat 0) 0 (by simp; omega) (by simp)
      (by
        intro v hv
        simp only [List.mem_map] at hv
        obtain ⟨x, _, rfl⟩ := hv
        exact getD_le_of_bound row x hrb)
    have hrec := ih (y + 1) rest (fun r hr => hlen r (List.mem_cons_of_mem row hr))
    simp only [hline, hfields]
    rw [htoks]
    simp only [hfill, hrec, List.take_zero, List.nil_append,
      List.length_map, List.length_range, Nat.zero_add, List.length_replicate]
    rw [show (List.replicate w.toNat 0).drop w.toNat = [] by simp]
    simp only [List.append_nil]
    rw [← hrw, range_map_getD]

theorem p5Row_length (wN : Nat) (row : List Nat) : (p5Row wN row).length = wN := by
  simp [p5Row]

theorem readP5Rows_append (wN : Nat) :
    ∀ (rows : List (List Nat)) (y : Nat) (rest : ByteStream),
      (∀ r ∈ rows, r.length = wN) →
      readP5Rows wN y rows.length ((rows.map (p5Row wN)).flatten ++ rest)
        = .ok (rows, rest) := by
  intro rows
  induction rows with
  | nil => intro y rest _; simp [readP5Rows]
  | cons row rows ih =>
    intro y rest hlen
    have hrw : row.length = wN := hlen row (by simp)
    simp only [List.map_cons, List.flatten_cons, List.length_cons]
    rw [readP5Rows]
    rw [show p5Row wN row ++ (rows.map (p5Row wN)).flatten ++ rest
        = p5Row wN row ++ ((rows.map (p5Row wN)).flatten ++ rest) by simp]
    have hslen : (p5Row wN row ++ ((rows.map (p5Row wN)).flatten ++ rest)).length
        = wN + ((rows.map (p5Row wN)).flatten ++ rest).length := by
      simp [p5Row_length]
    rw [if_neg (by
      rintro ⟨h1, h2⟩
      rw [h2] at hslen
      simp at hslen
      omega)]
    rw [if_neg (by rw [hslen]; omega)]
    rw [List.take_left' (p5Row_length wN row), List.drop_left' (p5Row_length wN row)]
    rw [ih (y + 1) rest (fun r hr => hlen r (List.mem_cons_of_mem row hr))]
    rw [show p5Row wN row = row by rw [p5Row, ← hrw, range_map_getD]]

theorem packExpr_extract : ∀ (x0 x1 x2 x3 x4 x5 x6 x7 : Bool), ∀ j < 8,
    (packExpr x0 x1 x2 x3 x4 x5 x6 x7 / 2 ^ (7 - j) % 2 != 0)
      = [x0, x1, x2, x3, x4, x5, x6, x7].getD j false := by
  decide

theorem packByte_eq_packExpr (b : List Bool) (k : Nat) :
    packByte b k = packExpr (b.getD (8 * k + 0) false) (b.getD (8 * k + 1) false)
      (b.getD (8 * k + 2) false) (b.getD (8 * k + 3) false) (b.getD (8 * k + 4) false)
      (b.getD (8 * k + 5) false) (b.getD (8 * k + 6) false) (b.getD (8 * k + 7) false) := rfl

theorem packByte_extract (b : List Bool) (k j : Nat) (hj : j < 8) :
    (packByte b k / 2 ^ (7 - j) % 2 != 0) = b.getD (8 * k + j) false := by
  rw [packByte_eq_packExpr]
  rw [packExpr_extract _ _ _ _ _ _ _ _ j hj]
  interval_cases j <;> rfl

theorem p4Row_length (wN : Nat) (row : List Bool) : (p4Row wN row).length = (wN + 7) / 8 := by
  simp [p4Row]

theorem unpackRow_p4Row (wN : Nat) (row : List Bool) (hrw : row.length = wN) :
    unpackRow wN (p4Row wN row) = row := by
  apply List.ext_getElem
  · simp [unpackRow, hrw]
  · intro i h1 h2
    have hi : i < wN := by simpa [unpackRow] using h1
    simp only [unpackRow, List.getElem_map, List.getElem_range]
    have hbyte : (p4Row wN row).getD (i / 8) 0 = packByte row (i / 8) := by
      have hidx : i / 8 < (wN + 7) / 8 := by omega
      rw [List.getD_eq_getElem?_getD, p4Row,
        List.getElem?_eq_getElem (by simpa using hidx)]
      simp
    rw [hbyte]
    have := packByte_extract row (i / 8) (i % 8) (by omega)
    rw [show 2 ^ (7 - i % 8) = 2 ^ (7 - i % 8) from rfl] at this
    rw [this, show 8 * (i / 8) + i % 8 = i by omega]
    rw [List.getD_eq_getElem?_getD, List.getElem?_eq_getElem (by omega)]
    rfl

theorem readP4Rows_append (wN : Nat) :
    ∀ (rows : List (List Bool)) (y : Nat) (rest : ByteStream),
      (∀ r ∈ rows, r.length = wN) →
      readP4Rows wN y rows.length ((rows.map (p4Row wN)).flatten ++ rest)
        = .ok (rows, rest) := by
  intro rows
  induction rows with
  | nil => intro y rest _; simp [readP4Rows]
  | cons row rows ih =>
    intro y rest hlen
    have hrw : row.length = wN := hlen row (by simp)
    simp only [List.map_cons, List.flatten_cons, List.length_cons]
    rw [readP4Rows]
    rw [show p4Row wN row ++ (rows.map (p4Row wN)).flatten ++ rest
        = p4Row wN row ++ ((rows.map (p4Row wN)).flatten ++ rest) by simp]
    have hslen : (p4Row wN row ++ ((rows.map (p4Row wN)).flatten ++ rest)).length
        = (wN + 7) / 8 + ((rows.map (p4Row wN)).flatten ++ rest).length := by
      simp [p4Row_length]
    rw [if_neg (by
      rintro ⟨h1, h2⟩
      rw [h2] at hslen
      simp at hslen
      omega)]
    rw [if_neg (by rw [hslen]; omega)]
    rw [List.take_left' (p4Row_length wN row), List.drop_left' (p4Row_length wN row)]
    rw [ih (y + 1) rest (fun r hr => hlen r (List.mem_cons_of_mem row hr))]
    rw [unpackRow_p4Row wN row hrw]

theorem getD_append_left {α : Type} (l1 l2 : List α) (n : Nat) (d : α) (h : n < l1.length) :
    (l1 ++ l2).getD n d = l1.getD n d := by
  simp only [List.getD_eq_getElem?_getD, List.getElem?_append_left h]

theorem getD_append_right {α : Type} (l1 l2 : List α) (n : Nat) (d : α) (h : l1.length ≤ n) :
    (l1 ++ l2).getD n d = l2.getD (n - l1.length) d := by
  simp only [List.getD_eq_getElem?_getD, List.getElem?_append_right h]

/-- Reading entry `x*k + j` of the concatenation of `n` equal-size-`k`
blocks yields entry `j` of block `x`. -/
theorem flatten_range_block_getD {α : Type} :
    ∀ (x : Nat) (g : Nat → List α) (k : Nat), (∀ i, (g i).length = k) →
    ∀ (n j : Nat), x < n → j < k → ∀ (d : α),
      (((List.range n).map g).flatten).getD (x * k + j) d = (g x).getD j d := by
  intro x
  induction x with
  | zero =>
    intro g k hk n j hx hj d
    obtain ⟨m, rfl⟩ : ∃ m, n = m + 1 := ⟨n - 1, by omega⟩
    rw [List.range_succ_eq_map, List.map_cons, List.flatten_cons]
    rw [Nat.zero_mul, Nat.zero_add]
    exact getD_append_left _ _ j d (by rw [hk 0]; exact hj)
  | succ x ih =>
    intro g k hk n j hx hj d
    obtain ⟨m, rfl⟩ : ∃ m, n = m + 1 := ⟨n - 1, by omega⟩
    rw [List.range_succ_eq_map, List.map_cons, List.flatten_cons, List.map_map]
    rw [getD_append_right _ _ _ d (by rw [hk 0]; nlinarith)]
    rw [hk 0, show (x + 1) * k + j - k = x * k + j by ring_nf; omega]
    exact ih (g ∘ Nat.succ) k (fun i => hk (i + 1)) m j (by omega) hj d

theorem p6Row_blocks (wN : Nat) (row : List Pixel) :
    p6Row wN row = ((List.range wN).map fun x =>
      [(row.getD x ⟨0, 0, 0⟩).R, (row.getD x ⟨0, 0, 0⟩).G, (row.getD x ⟨0, 0, 0⟩).B]).flatten := rfl

theorem p6Row_length (wN : Nat) (row : List Pixel) : (p6Row wN row).length = wN * 3 := by
  rw [p6Row_blocks]
  induction wN with
  | zero => rfl
  | succ m ih =>
    rw [List.range_succ, List.map_append, List.flatten_append]
    simp only [List.length_append, ih]
    simp [Nat.succ_mul]

theorem unpackPixelRow_p6Row (wN : Nat) (row : List Pixel) (hrw : row.length = wN) :
    unpackPixelRow wN (p6Row wN row) = row := by
  apply List.ext_getElem
  · simp [unpackPixelRow, hrw]
  · intro i h1 h2
    have hi : i < wN := by simpa [unpackPixelRow] using h1
    simp only [unpackPixelRow, List.getElem_map, List.getElem_range]
    rw [p6Row_blocks]
    have hk : ∀ x, ([(row.getD x ⟨0, 0, 0⟩).R, (row.getD x ⟨0, 0, 0⟩).G,
        (row.getD x ⟨0, 0, 0⟩).B] : List Nat).length = 3 := fun x => rfl
    rw [show i * 3 + 1 = i * 3 + 1 from rfl, show (i * 3 : Nat) = i * 3 + 0 by omega]
    rw [flatten_range_block_getD i _ 3 hk wN 0 hi (by omega) 0,
      flatten_range_block_getD i _ 3 hk wN 1 hi (by omega) 0,
      flatten_range_block_getD i _ 3 hk wN 2 hi (by omega) 0]
    have hrow : row.getD i ⟨0, 0, 0⟩ = row[i] := by
      rw [List.getD_eq_getElem?_getD, List.getElem?_eq_getElem (by omega)]
      rfl
    rw [hrow]
    rfl

theorem readP6Rows_append (wN : Nat) :
    ∀ (rows : List (List Pixel)) (y : Nat) (rest : ByteStream),
      (∀ r ∈ rows, r.length = wN) →
      readP6Rows wN y rows.length ((rows.map (p6Row wN)).flatten ++ rest)
        = .ok (rows, rest) := by
  intro rows
  induction rows with
  | nil => intro y rest _; simp [readP6Rows]
  | cons row rows ih =>
    intro y rest hlen
    have hrw : row.length = wN := hlen row (by simp)
    simp only [List.map_cons, List.flatten_cons, List.length_cons]
    rw [readP6Rows]
    rw [show p6Row wN row ++ (rows.map (p6Row wN)).flatten ++ rest
        = p6Row wN row ++ ((rows.map (p6Row wN)).flatten ++ rest) by simp]
    have hslen : (p6Row wN row ++ ((rows.map (p6Row wN)).flatten ++ rest)).length
        = wN * 3 + ((rows.map (p6Row wN)).flatten ++ rest).length := by
      simp [p6Row_length]
    rw [if_neg (by
      rintro ⟨h1, h2⟩
      rw [h2] at hslen
      simp at hslen
      omega)]
    rw [if_neg (by rw [hslen]; omega)]
    rw [List.take_left' (by rw [p6Row_length]), List.drop_left' (by rw [p6Row_length])]
    rw [ih (y + 1) rest (fun r hr => hlen r (List.mem_cons_of_mem row hr))]
    rw [unpackPixelRow_p6Row wN row hrw]

theorem p3Tokens_length (wN : Nat) (row : List Pixel) : (p3Tokens wN row).length = wN * 3 := by
  rw [p3Tokens]
  induction wN with
  | zero => rfl
  | succ m ih =>
    rw [List.range_succ, List.map_append, List.flatten_append]
    simp only [List.length_append, ih]
    simp [Nat.succ_mul]

theorem p3Tokens_wf (wN : Nat) (row : List Pixel) :
    ∀ t ∈ p3Tokens wN row, t ≠ [] ∧ ∀ b ∈ t, isSpaceByte b = false := by
  intro t ht
  rw [p3Tokens, List.mem_flatten] at ht
  obtain ⟨l, hl, htl⟩ := ht
  simp only [List.mem_map] at hl
  obtain ⟨x, _, rfl⟩ := hl
  simp only [List.mem_cons, List.mem_singleton] at htl
  rcases htl with rfl | rfl | rfl | h
  · exact ⟨natDecimal_ne_nil _, fun b hb => isSpaceByte_of_digit (natDecimal_mem _ b hb)⟩
  · exact ⟨natDecimal_ne_nil _, fun b hb => isSpaceByte_of_digit (natDecimal_mem _ b hb)⟩
  · exact ⟨natDecimal_ne_nil _, fun b hb => isSpaceByte_of_digit (natDecimal_mem _ b hb)⟩
  · simp at h

theorem p3Row_eq (wN : Nat) (row : List Pixel) :
    p3Row wN row = ((p3Tokens wN row).map (· ++ [32])).flatten ++ [10] := by
  rw [p3Row, p3Tokens]
  congr 1
  rw [List.map_flatten, List.flatten_flatten, List.map_map, List.map_map]
  apply congrArg List.flatten
  apply List.map_congr_left
  intro x _
  simp

theorem pixel_getD_bound (row : List Pixel) (x : Nat)
    (hb : ∀ p ∈ row, p.R ≤ 255 ∧ p.G ≤ 255 ∧ p.B ≤ 255) :
    (row.getD x ⟨0, 0, 0⟩).R ≤ 255 ∧ (row.getD x ⟨0, 0, 0⟩).G ≤ 255
      ∧ (row.getD x ⟨0, 0, 0⟩).B ≤ 255 := by
  by_cases hx : x < row.length
  · rw [List.getD_eq_getElem?_getD, List.getElem?_eq_getElem hx]
    exact hb _ (List.getElem_mem hx)
  · rw [List.getD_eq_getElem?_getD, List.getElem?_eq_none (by omega)]
    simp

theorem parseP3Row_ok (wN : Nat) (y : Nat) (row : List Pixel)
    (hb : ∀ p ∈ row, p.R ≤ 255 ∧ p.G ≤ 255 ∧ p.B ≤ 255) :
    ∀ (n x : Nat), x + n = wN →
      parseP3Row (p3Tokens wN row) y x n
        = .ok ((List.range' x n).map fun i => row.getD i ⟨0, 0, 0⟩) := by
  intro n
  induction n with
  | zero => intro x hx; simp [parseP3Row]
  | succ n ih =>
    intro x hx
    have hxlt : x < wN := by omega
    have hblock : ∀ i, (([natDecimal (row.getD i ⟨0, 0, 0⟩).R,
        natDecimal (row.getD i ⟨0, 0, 0⟩).G,
        natDecimal (row.getD i ⟨0, 0, 0⟩).B] : List ByteStream)).length = 3 := fun _ => rfl
    have hbound := pixel_getD_bound row x hb
    rw [parseP3Row, if_neg (by rw [p3Tokens_length]; omega)]
    rw [show (x * 3 : Nat) = x * 3 + 0 by omega]
    rw [p3Tokens]
    rw [flatten_range_block_getD x _ 3 hblock wN 0 hxlt (by omega) [],
      flatten_range_block_getD x _ 3 hblock wN 1 hxlt (by omega) [],
      flatten_range_block_getD x _ 3 hblock wN 2 hxlt (by omega) []]
    rw [show (([natDecimal (row.getD x ⟨0, 0, 0⟩).R, natDecimal (row.getD x ⟨0, 0, 0⟩).G,
        natDecimal (row.getD x ⟨0, 0, 0⟩).B] : List ByteStream)).getD 0 []
        = natDecimal (row.getD x ⟨0, 0, 0⟩).R from rfl]
    rw [show (([natDecimal (row.getD x ⟨0, 0, 0⟩).R, natDecimal (row.getD x ⟨0, 0, 0⟩).G,
        natDecimal (row.getD x ⟨0, 0, 0⟩).B] : List ByteStream)).getD 1 []
        = natDecimal (row.getD x ⟨0, 0, 0⟩).G from rfl]
    rw [show (([natDecimal (row.getD x ⟨0, 0, 0⟩).R, natDecimal (row.getD x ⟨0, 0, 0⟩).G,
        natDecimal (row.getD x ⟨0, 0, 0⟩).B] : List ByteStream)).getD 2 []
        = natDecimal (row.getD x ⟨0, 0, 0⟩).B from rfl]
    rw [parseUint8_natDecimal _ hbound.1, parseUint8_natDecimal _ hbound.2.1,
      parseUint8_natDecimal _ hbound.2.2]
    rw [← p3Tokens]
    change (match parseP3Row (p3Tokens wN row) y (x + 1) n with
      | .error e => Except.error e
      | .ok rest => .ok (Pixel.mk (row.getD x ⟨0, 0, 0⟩).R (row.getD x ⟨0, 0, 0⟩).G
          (row.getD x ⟨0, 0, 0⟩).B :: rest)) = _
    rw [ih (x + 1) (by omega)]
    rw [List.range'_succ]
    simp only [List.map_cons]

theorem p3Row_no_newline (wN : Nat) (row : List Pixel) :
    10 ∉ ((p3Tokens wN row).map (· ++ [32])).flatten := by
  intro h
  rw [List.mem_flatten] at h
  obtain ⟨l, hl, hml⟩ := h
  simp only [List.mem_map] at hl
  obtain ⟨t, ht, rfl⟩ := hl
  rcases List.mem_append.1 hml with h | h
  · have := (p3Tokens_wf wN row t ht).2 10 h
    simp [isSpaceByte] at this
  · simp at h

theorem readP3Rows_append (wN : Nat) :
    ∀ (rows : List (List Pixel)) (y : Nat) (rest : ByteStream),
      (∀ r ∈ rows, r.length = wN ∧ ∀ p ∈ r, p.R ≤ 255 ∧ p.G ≤ 255 ∧ p.B ≤ 255) →
      readP3Rows wN y rows.length ((rows.map (p3Row wN)).flatten ++ rest)
        = .ok (rows, rest) := by
  intro rows
  induction rows with
  | nil => intro y rest _; simp [readP3Rows]
  | cons row rows ih =>
    intro y rest hlen
    have hrw : row.length = wN := (hlen row (by simp)).1
    have hrb := (hlen row (by simp)).2
    simp only [List.map_cons, List.flatten_cons, List.length_cons]
    rw [readP3Rows]
    rw [show p3Row wN row ++ (rows.map (p3Row wN)).flatten ++ rest
        = ((p3Tokens wN row).map (· ++ [32])).flatten
          ++ 10 :: ((rows.map (p3Row wN)).flatten ++ rest) by
      rw [p3Row_eq]; simp]
    have hline := readStringNL_append _
      ((rows.map (p3Row wN)).flatten ++ rest) (p3Row_no_newline wN row)
    have hfields := fields_spaced _ (p3Tokens_wf wN row)
    have hparse := parseP3Row_ok wN y row hrb wN 0 (by omega)
    have hrec := ih (y + 1) rest (fun r hr => hlen r (List.mem_cons_of_mem row hr))
    simp only [hline, hfields, hparse, hrec]
    rw [show (List.range' 0 wN).map (fun i => row.getD i ⟨0, 0, 0⟩) = row by
      rw [List.range'_eq_map_range, List.map_map, ← hrw]
      rw [show ((fun i => row.getD i ⟨0, 0, 0⟩) ∘ (0 + ·)) = fun i => row.getD i ⟨0, 0, 0⟩ by
        funext i; simp]
      rw [range_map_getD]]

/-! ## Lemmas: the header records of a saved file -/

theorem intDecimal_mem (w : Int) : ∀ b ∈ intDecimal w, b = 45 ∨ (48 ≤ b ∧ b ≤ 57) := by
  unfold intDecimal
  split
  · intro b hb
    rcases List.mem_cons.1 hb with rfl | h
    · left; rfl
    · right; exact natDecimal_mem _ b h
  · intro b hb
    right; exact natDecimal_mem _ b hb

theorem dims_no_newline (w h : Int) : 10 ∉ intDecimal w ++ [32] ++ intDecimal h := by
  intro hmem
  simp only [List.append_assoc, List.mem_append, List.mem_singleton] at hmem
  rcases hmem with h1 | h1 | h1
  · rcases intDecimal_mem w 10 h1 with h2 | h2 <;> omega
  · exact absurd h1 (by decide)
  · rcases intDecimal_mem h 10 h1 with h2 | h2 <;> omega

theorem dims_headD_not_space (w : Int) (r : ByteStream) :
    isSpaceByte ((intDecimal w ++ r).headD 0) = false := by
  unfold intDecimal
  split
  · rfl
  · have hd := headD_natDecimal_digit w.natAbs r
    exact isSpaceByte_of_digit hd

theorem getLastD_mem (l : ByteStream) (hne : l ≠ []) (d : Nat) : l.getLastD d ∈ l := by
  rw [List.getLastD_eq_getLast?, List.getLast?_eq_getLast l hne]
  exact List.getLast_mem hne

theorem dims_getLastD_not_space (w h : Int) :
    isSpaceByte ((intDecimal w ++ [32] ++ intDecimal h).getLastD 0) = false := by
  have hne : intDecimal h ≠ [] := by
    unfold intDecimal
    split
    · simp
    · exact natDecimal_ne_nil _
  have hlast : (intDecimal w ++ [32] ++ intDecimal h).getLastD 0 = (intDecimal h).getLastD 0 := by
    rw [List.getLastD_eq_getLast?, List.getLastD_eq_getLast?, List.getLast?_append]
    rw [List.getLast?_eq_getLast _ hne]
    rfl
  rw [hlast]
  rcases intDecimal_mem h _ (getLastD_mem (intDecimal h) hne 0) with h1 | h1
  · rw [h1]; rfl
  · exact isSpaceByte_of_digit h1

theorem trimSpace_dims (w h : Int) :
    trimSpace ((intDecimal w ++ [32] ++ intDecimal h) ++ [10])
      = intDecimal w ++ [32] ++ intDecimal h := by
  apply trimSpace_append_newline
  · simp
  · rw [show intDecimal w ++ [32] ++ intDecimal h
        = intDecimal w ++ ([32] ++ intDecimal h) by simp]
    exact dims_headD_not_space w ([32] ++ intDecimal h)
  · exact dims_getLastD_not_space w h

/-- Round trip of the whole bitmap codec: a well-formed image saved in
its own variant decodes back to itself. -/
theorem ReadPBM_Save (m : PBM) (hwf : m.wf) :
    ∃ s, m.Save = some s ∧ ReadPBM s = .ok m := by
  obtain ⟨hw, hh, hdl, hrl, hmagic⟩ := hwf
  have hdims := parseDims_dimsLine m.width m.height
  have htrim := trimSpace_dims m.width m.height
  rcases hmagic with hm | hm
  · refine ⟨_, by rw [PBM.Save, if_pos hm], ?_⟩
    rw [hm]
    rw [show (mP1 ++ [10] ++ intDecimal m.width ++ [32] ++ intDecimal m.height ++ [10])
          ++ (m.data.map (p1Row m.width.toNat)).flatten
        = mP1 ++ 10 :: ((intDecimal m.width ++ [32] ++ intDecimal m.height)
          ++ 10 :: ((m.data.map (p1Row m.width.toNat)).flatten ++ [])) by simp]
    have hln1 := readStringNL_append mP1
      ((intDecimal m.width ++ [32] ++ intDecimal m.height)
        ++ 10 :: ((m.data.map (p1Row m.width.toNat)).flatten ++ [])) (by decide)
    have hln2 := readStringNL_append (intDecimal m.width ++ [32] ++ intDecimal m.height)
      ((m.data.map (p1Row m.width.toNat)).flatten ++ []) (dims_no_newline m.width m.height)
    have hrows := readP1Rows_append m.width (by omega) m.data 0 [] hrl
    rw [hdl] at hrows
    simp only [ReadPBM, hln1, show trimSpace (mP1 ++ [10]) = mP1 by decide]
    rw [if_neg (show ¬(mP1 ≠ mP1 ∧ mP1 ≠ mP4) by decide)]
    simp only [hln2, htrim, hdims]
    rw [if_neg (show ¬(m.height < 0) by omega)]
    rw [if_neg (show ¬(0 < m.height ∧ m.width < 0) by rintro ⟨h1, h2⟩; omega)]
    simp only [if_true]
    simp only [hrows]
    rw [← hm]
  · refine ⟨_, by rw [PBM.Save, if_neg (by rw [hm]; decide), if_pos hm], ?_⟩
    rw [hm]
    rw [show (mP4 ++ [10] ++ intDecimal m.width ++ [32] ++ intDecimal m.height ++ [10])
          ++ (m.data.map (p4Row m.width.toNat)).flatten
        = mP4 ++ 10 :: ((intDecimal m.width ++ [32] ++ intDecimal m.height)
          ++ 10 :: ((m.data.map (p4Row m.width.toNat)).flatten ++ [])) by simp]
    have hln1 := readStringNL_append mP4
      ((intDecimal m.width ++ [32] ++ intDecimal m.height)
        ++ 10 :: ((m.data.map (p4Row m.width.toNat)).flatten ++ [])) (by decide)
    have hln2 := readStringNL_append (intDecimal m.width ++ [32] ++ intDecimal m.height)
      ((m.data.map (p4Row m.width.toNat)).flatten ++ []) (dims_no_newline m.width m.height)
    have hrows := readP4Rows_append m.width.toNat m.data 0 [] hrl
    rw [hdl] at hrows
    simp only [ReadPBM, hln1, show trimSpace (mP4 ++ [10]) = mP4 by decide]
    rw [if_neg (show ¬(mP4 ≠ mP1 ∧ mP4 ≠ mP4) by decide)]
    simp only [hln2, htrim, hdims]
    rw [if_neg (show ¬(m.height < 0) by omega)]
    rw [if_neg (show ¬(0 < m.height ∧ m.width < 0) by rintro ⟨h1, h2⟩; omega)]
    rw [if_neg (show ¬(mP4 = mP1) by decide)]
    simp only [hrows]
    rw [← hm]

theorem trimSpace_natDecimal (n : Nat) : trimSpace (natDecimal n ++ [10]) = natDecimal n := by
  apply trimSpace_append_newline _ (natDecimal_ne_nil n)
  · have := headD_natDecimal_digit n []
    simp only [List.append_nil] at this
    exact isSpaceByte_of_digit this
  · exact isSpaceByte_of_digit (natDecimal_mem n _
      (getLastD_mem (natDecimal n) (natDecimal_ne_nil n) 0))

theorem natDecimal_no_newline (n : Nat) : 10 ∉ natDecimal n := by
  intro h
  have := natDecimal_mem n 10 h
  omega

/-- Round trip of the whole grayscale codec: a well-formed image saved
in its own variant decodes back to itself. -/
theorem ReadPGM_Save (m : PGM) (hwf : m.wf) :
    ∃ s, m.Save = some s ∧ ReadPGM s = .ok m := by
  obtain ⟨hw, hh, hdl, hrl, hmx, hmagic⟩ := hwf
  have hdims := parseDims_dimsLine m.width m.height
  have htrim := trimSpace_dims m.width m.height
  have hanyf : ¬(m.data.any (fun r => (r.length : Int) ≠ m.width) = true) := by
    intro hc
    rw [List.any_eq_true] at hc
    obtain ⟨r, hr, hcontra⟩ := hc
    rw [(hrl r hr).1] at hcontra
    simp only [ne_eq, decide_eq_true_eq] at hcontra
    apply hcontra
    omega
  rcases hmagic with hm | hm
  · refine ⟨_, by rw [PGM.Save, if_neg hanyf, if_pos hm], ?_⟩
    rw [hm]
    rw [show (mP2 ++ [10] ++ intDecimal m.width ++ [32] ++ intDecimal m.height ++ [10]
          ++ natDecimal m.max ++ [10]) ++ (m.data.map (p2Row m.width.toNat)).flatten
        = mP2 ++ 10 :: ((intDecimal m.width ++ [32] ++ intDecimal m.height)
          ++ 10 :: (natDecimal m.max
            ++ 10 :: ((m.data.map (p2Row m.width.toNat)).flatten ++ []))) by simp]
    have hln1 := readStringNL_append mP2
      ((intDecimal m.width ++ [32] ++ intDecimal m.height)
        ++ 10 :: (natDecimal m.max
          ++ 10 :: ((m.data.map (p2Row m.width.toNat)).flatten ++ []))) (by decide)
    have hln2 := readStringNL_append (intDecimal m.width ++ [32] ++ intDecimal m.height)
      (natDecimal m.max ++ 10 :: ((m.data.map (p2Row m.width.toNat)).flatten ++ []))
      (dims_no_newline m.width m.height)
    have hln3 := readStringNL_append (natDecimal m.max)
      ((m.data.map (p2Row m.width.toNat)).flatten ++ []) (natDecimal_no_newline m.max)
    have hrows := readP2Rows_append m.width (by omega) m.data 0 [] hrl
    rw [hdl] at hrows
    simp only [ReadPGM, hln1, show trimSpace (mP2 ++ [10]) = mP2 by decide]
    rw [if_neg (show ¬(mP2 ≠ mP2 ∧ mP2 ≠ mP5) by decide)]
    simp only [hln2, htrim, hdims]
    rw [if_neg (show ¬(m.width ≤ 0 ∨ m.height ≤ 0) by rintro (h1 | h1) <;> omega)]
    simp only [hln3, trimSpace_natDecimal, parseUint8_natDecimal m.max hmx]
    simp only [if_true]
    simp only [hrows]
    rw [← hm]
  · refine ⟨_, by rw [PGM.Save, if_neg hanyf, if_neg (by rw [hm]; decide), if_pos hm], ?_⟩
    rw [hm]
    rw [show (mP5 ++ [10] ++ intDecimal m.width ++ [32] ++ intDecimal m.height ++ [10]
          ++ natDecimal m.max ++ [10]) ++ (m.data.map (p5Row m.width.toNat)).flatten
        = mP5 ++ 10 :: ((intDecimal m.width ++ [32] ++ intDecimal m.height)
          ++ 10 :: (natDecimal m.max
            ++ 10 :: ((m.data.map (p5Row m.width.toNat)).flatten ++ []))) by simp]
    have hln1 := readStringNL_append mP5
      ((intDecimal m.width ++ [32] ++ intDecimal m.height)
        ++ 10 :: (natDecimal m.max
          ++ 10 :: ((m.data.map (p5Row m.width.toNat)).flatten ++ []))) (by decide)
    have hln2 := readStringNL_append (intDecimal m.width ++ [32] ++ intDecimal m.height)
      (natDecimal m.max ++ 10 :: ((m.data.map (p5Row m.width.toNat)).flatten ++ []))
      (dims_no_newline m.width m.height)
    have hln3 := readStringNL_append (natDecimal m.max)
      ((m.data.map (p5Row m.width.toNat)).flatten ++ []) (natDecimal_no_newline m.max)
    have hrows := readP5Rows_append m.width.toNat m.data 0 [] (fun r hr => (hrl r hr).1)
    rw [hdl] at hrows
    simp only [ReadPGM, hln1, show trimSpace (mP5 ++ [10]) = mP5 by decide]
    rw [if_neg (show ¬(mP5 ≠ mP2 ∧ mP5 ≠ mP5) by decide)]
    simp only [hln2, htrim, hdims]
    rw [if_neg (show ¬(m.width ≤ 0 ∨ m.height ≤ 0) by rintro (h1 | h1) <;> omega)]
    simp only [hln3, trimSpace_natDecimal, parseUint8_natDecimal m.max hmx]
    rw [if_neg (show ¬(mP5 = mP2) by decide)]
    simp only [hrows]
    rw [← hm]

/-- Round trip of the whole color codec: a well-formed image saved in
its own variant decodes back to itself. -/
theorem ReadPPM_Save (m : PPM) (hwf : m.wf) :
    ∃ s, m.Save = some s ∧ ReadPPM s = .ok m := by
  obtain ⟨hw, hh, hdl, hrl, hmx, hmagic⟩ := hwf
  have hdims := parseDims_dimsLine m.width m.height
  have htrim := trimSpace_dims m.width m.height
  rcases hmagic with hm | hm
  · refine ⟨_, by rw [PPM.Save, if_pos (Or.inr hm), if_neg (by rw [hm]; decide)], ?_⟩
    rw [hm]
    rw [show (mP3 ++ [10] ++ intDecimal m.width ++ [32] ++ intDecimal m.height ++ [10]
          ++ natDecimal m.max ++ [10]) ++ (m.data.map (p3Row m.width.toNat)).flatten
        = mP3 ++ 10 :: ((intDecimal m.width ++ [32] ++ intDecimal m.height)
          ++ 10 :: (natDecimal m.max
            ++ 10 :: ((m.data.map (p3Row m.width.toNat)).flatten ++ []))) by simp]
    have hln1 := readStringNL_append mP3
      ((intDecimal m.width ++ [32] ++ intDecimal m.height)
        ++ 10 :: (natDecimal m.max
          ++ 10 :: ((m.data.map (p3Row m.width.toNat)).flatten ++ []))) (by decide)
    have hln2 := readStringNL_append (intDecimal m.width ++ [32] ++ intDecimal m.height)
      (natDecimal m.max ++ 10 :: ((m.data.map (p3Row m.width.toNat)).flatten ++ []))
      (dims_no_newline m.width m.height)
    have hln3 := readStringNL_append (natDecimal m.max)
      ((m.data.map (p3Row m.width.toNat)).flatten ++ []) (natDecimal_no_newline m.max)
    have hrows := readP3Rows_append m.width.toNat m.data 0 []
      (fun r hr => ⟨(hrl r hr).1, (hrl r hr).2⟩)
    rw [hdl] at hrows
    simp only [ReadPPM, hln1, show trimSpace (mP3 ++ [10]) = mP3 by decide]
    rw [if_neg (show ¬(mP3 ≠ mP3 ∧ mP3 ≠ mP6) by decide)]
    simp only [hln2, htrim, hdims]
    rw [if_neg (show ¬(m.width ≤ 0 ∨ m.height ≤ 0) by rintro (h1 | h1) <;> omega)]
    simp only [hln3, trimSpace_natDecimal, parseUint8_natDecimal m.max hmx]
    simp only [if_true]
    simp only [hrows]
    rw [← hm]
  · refine ⟨_, by rw [PPM.Save, if_pos (Or.inl hm), if_pos hm], ?_⟩
    rw [hm]
    rw [show (mP6 ++ [10] ++ intDecimal m.width ++ [32] ++ intDecimal m.height ++ [10]
          ++ natDecimal m.max ++ [10]) ++ (m.data.map (p6Row m.width.toNat)).flatten
        = mP6 ++ 10 :: ((intDecimal m.width ++ [32] ++ intDecimal m.height)
          ++ 10 :: (natDecimal m.max
            ++ 10 :: ((m.data.map (p6Row m.width.toNat)).flatten ++ []))) by simp]
    have hln1 := readStringNL_append mP6
      ((intDecimal m.width ++ [32] ++ intDecimal m.height)
        ++ 10 :: (natDecimal m.max
          ++ 10 :: ((m.data.map (p6Row m.width.toNat)).flatten ++ []))) (by decide)
    have hln2 := readStringNL_append (intDecimal m.width ++ [32] ++ intDecimal m.height)
      (natDecimal m.max ++ 10 :: ((m.data.map (p6Row m.width.toNat)).flatten ++ []))
      (dims_no_newline m.width m.height)
    have hln3 := readStringNL_append (natDecimal m.max)
      ((m.data.map (p6Row m.width.toNat)).flatten ++ []) (natDecimal_no_newline m.max)
    have hrows := readP6Rows_append m.width.toNat m.data 0 [] (fun r hr => (hrl r hr).1)
    rw [hdl] at hrows
    simp only [ReadPPM, hln1, show trimSpace (mP6 ++ [10]) = mP6 by decide]
    rw [if_neg (show ¬(mP6 ≠ mP3 ∧ mP6 ≠ mP6) by decide)]
    simp only [hln2, htrim, hdims]
    rw [if_neg (show ¬(m.width ≤ 0 ∨ m.height ≤ 0) by rintro (h1 | h1) <;> omega)]
    simp only [hln3, trimSpace_natDecimal, parseUint8_natDecimal m.max hmx]
    rw [if_neg (show ¬(mP6 = mP3) by decide)]
    simp only [hrows]
    rw [← hm]

/-! ## Lemmas: the Bresenham line loop -/

theorem bres_progress (dx dy a b : Int) (ha0 : 0 ≤ a) (ha : a ≤ dx) (hb0 : 0 ≤ b)
    (hb : b ≤ dy) (hne : ¬(a = dx ∧ b = dy)) :
    2 * (dx - dy - a * dy + b * dx) > -dy ∨ 2 * (dx - dy - a * dy + b * dx) < dx := by
  by_contra hcon
  push_neg at hcon
  obtain ⟨h1, h2⟩ := hcon
  have hdxdy : dx ≤ -dy := le_trans h2 h1
  exact hne ⟨by omega, by omega⟩

theorem bres_no_x_overshoot (dx dy b : Int) (hdx : 0 ≤ dx) (hb0 : 0 ≤ b) (hb : b ≤ dy - 1) :
    ¬(2 * (dx - dy - dx * dy + b * dx) > -dy) := by
  nlinarith [mul_nonneg hdx (by omega : (0 : Int) ≤ dy - 1 - b)]

theorem bres_no_y_overshoot (dx dy a : Int) (hdy : 0 ≤ dy) (ha0 : 0 ≤ a) (ha : a ≤ dx - 1) :
    ¬(2 * (dx - dy - a * dy + dy * dx) < dx) := by
  nlinarith [mul_nonneg hdy (by omega : (0 : Int) ≤ dx - 1 - a)]

theorem bresStep_eq (dx dy sx sy x y err : Int) :
    bresStep dx dy sx sy (x, y, err)
      = (x + (if 2 * err > -dy then sx else 0),
         y + (if 2 * err < dx then sy else 0),
         err + (if 2 * err > -dy then -dy else 0) + (if 2 * err < dx then dx else 0)) := by
  unfold bresStep
  by_cases h1 : 2 * err > -dy <;> by_cases h2 : 2 * err < dx <;> simp [h1, h2] <;> ring

theorem goAbs_endpoint (u v : Int) : v = u + (if u < v then 1 else -1) * goAbs (v - u) := by
  by_cases h1 : u < v <;> by_cases h2 : v - u < 0 <;> simp [goAbs, h1, h2] <;> omega

theorem goAbs_nonneg (u : Int) : 0 ≤ goAbs u := by
  unfold goAbs; split <;> omega

theorem drawLineLoop_reaches
    (x1 y1 x2 y2 dx dy sx sy : Int)
    (hdx : 0 ≤ dx) (hdy : 0 ≤ dy)
    (hsx : sx = 1 ∨ sx = -1) (hsy : sy = 1 ∨ sy = -1)
    (hx2 : x2 = x1 + sx * dx) (hy2 : y2 = y1 + sy * dy) :
    ∀ (fuel : Nat) (a b : Int), 0 ≤ a → a ≤ dx → 0 ≤ b → b ≤ dy →
      dx - a + (dy - b) < fuel →
      (drawLineLoop dx dy sx sy x2 y2 fuel
          (x1 + sx * a, y1 + sy * b, dx - dy - a * dy + b * dx)).head?
          = some ⟨x1 + sx * a, y1 + sy * b⟩
      ∧ (drawLineLoop dx dy sx sy x2 y2 fuel
          (x1 + sx * a, y1 + sy * b, dx - dy - a * dy + b * dx)).getLast?
          = some ⟨x2, y2⟩
      ∧ List.Chain' (fun q q' => q' = (⟨q.X + (if 2 * (dx - dy - (sx * (q.X - x1)) * dy
            + (sy * (q.Y - y1)) * dx) > -dy then sx else 0),
          q.Y + (if 2 * (dx - dy - (sx * (q.X - x1)) * dy + (sy * (q.Y - y1)) * dx) < dx
            then sy else 0)⟩ : Point))
        (drawLineLoop dx dy sx sy x2 y2 fuel
          (x1 + sx * a, y1 + sy * b, dx - dy - a * dy + b * dx)) := by
  have hsx2 : sx * sx = 1 := by rcases hsx with rfl | rfl <;> ring
  have hsy2 : sy * sy = 1 := by rcases hsy with rfl | rfl <;> ring
  have hxiff : ∀ c : Int, x1 + sx * c = x2 ↔ c = dx := by
    intro c
    rw [hx2]
    rcases hsx with rfl | rfl <;> constructor <;> intro h <;> omega
  have hyiff : ∀ c : Int, y1 + sy * c = y2 ↔ c = dy := by
    intro c
    rw [hy2]
    rcases hsy with rfl | rfl <;> constructor <;> intro h <;> omega
  intro fuel
  induction fuel with
  | zero => intro a b ha0 ha hb0 hb hfuel; omega
  | succ n ih =>
    intro a b ha0 ha hb0 hb hfuel
    by_cases hend : a = dx ∧ b = dy
    · rw [drawLineLoop, if_pos ⟨(hxiff a).2 hend.1, (hyiff b).2 hend.2⟩]
      refine ⟨rfl, ?_, by simp⟩
      simp only [List.getLast?_singleton]
      rw [(hxiff a).2 hend.1, (hyiff b).2 hend.2]
    · rw [drawLineLoop,
        if_neg (by rw [hxiff a, hyiff b]; exact hend)]
      rw [bresStep_eq]
      have hchainval : ∀ rest : List Point,
          (2 * (dx - dy - (sx * ((x1 + sx * a) - x1)) * dy + (sy * ((y1 + sy * b) - y1)) * dx))
            = 2 * (dx - dy - a * dy + b * dx) := by
        intro _
        have e1 : sx * ((x1 + sx * a) - x1) = a := by
          have : sx * ((x1 + sx * a) - x1) = (sx * sx) * a := by ring
          rw [this, hsx2]; ring
        have e2 : sy * ((y1 + sy * b) - y1) = b := by
          have : sy * ((y1 + sy * b) - y1) = (sy * sy) * b := by ring
          rw [this, hsy2]; ring
        rw [e1, e2]
      set e := dx - dy - a * dy + b * dx with he
      have hprog := bres_progress dx dy a b ha0 ha hb0 hb hend
      by_cases hxf : 2 * e > -dy <;> by_cases hyf : 2 * e < dx
      -- both branches fire
      · have haux : a < dx := by
          rcases lt_or_eq_of_le ha with h | h
          · exact h
          · exfalso
            have hbdy : b ≤ dy - 1 := by
              rcases lt_or_eq_of_le hb with h2 | h2
              · omega
              · exact absurd ⟨h, h2⟩ hend
            exact bres_no_x_overshoot dx dy b (by omega) hb0 hbdy
              (by have h2 := hxf; rw [he, h] at h2; exact h2)
        have hbux : b < dy := by
          rcases lt_or_eq_of_le hb with h | h
          · exact h
          · exfalso
            exact bres_no_y_overshoot dx dy a (by omega) ha0 (by omega)
              (by have h2 := hyf; rw [he, h] at h2; exact h2)
        have hstate : ((x1 + sx * a) + sx, (y1 + sy * b) + sy,
              e + -dy + dx)
            = (x1 + sx * (a + 1), y1 + sy * (b + 1),
              dx - dy - (a + 1) * dy + (b + 1) * dx) := by
          rw [he]; simp only [Prod.mk.injEq]; refine ⟨by ring, by ring, by ring⟩
        rw [if_pos hxf, if_pos hyf, if_pos hxf, if_pos hyf, hstate]
        obtain ⟨ihh, ihl, ihc⟩ := ih (a + 1) (b + 1) (by omega) (by omega) (by omega)
          (by omega) (by omega)
        obtain ⟨q', rest', hrest⟩ : ∃ q' rest',
            drawLineLoop dx dy sx sy x2 y2 n (x1 + sx * (a + 1), y1 + sy * (b + 1),
              dx - dy - (a + 1) * dy + (b + 1) * dx) = q' :: rest' := by
          cases hd : drawLineLoop dx dy sx sy x2 y2 n (x1 + sx * (a + 1), y1 + sy * (b + 1),
              dx - dy - (a + 1) * dy + (b + 1) * dx) with
          | nil => rw [hd] at ihh; simp at ihh
          | cons q' rest' => exact ⟨q', rest', rfl⟩
        rw [hrest] at ihh ihl ihc ⊢
        refine ⟨rfl, by rw [List.getLast?_cons_cons]; exact ihl, ?_⟩
        rw [List.chain'_cons']
        refine ⟨?_, ihc⟩
        intro z hz
        simp only [List.head?_cons, Option.mem_def, Option.some.injEq] at hz
        subst hz
        simp only [List.head?_cons, Option.some.injEq] at ihh
        rw [ihh]
        have hxa : ((⟨x1 + sx * a, y1 + sy * b⟩ : Point)).X = x1 + sx * a := rfl
        have hya : ((⟨x1 + sx * a, y1 + sy * b⟩ : Point)).Y = y1 + sy * b := rfl
        rw [hxa, hya, hchainval []]
        rw [if_pos hxf, if_pos hyf]
        simp only [Point.mk.injEq]
        constructor <;> ring
      -- only x fires
      · have haux : a < dx := by
          rcases lt_or_eq_of_le ha with h | h
          · exact h
          · exfalso
            have hbdy : b ≤ dy - 1 := by
              rcases lt_or_eq_of_le hb with h2 | h2
              · omega
              · exact absurd ⟨h, h2⟩ hend
            exact bres_no_x_overshoot dx dy b (by omega) hb0 hbdy
              (by have h2 := hxf; rw [he, h] at h2; exact h2)
        have hstate : ((x1 + sx * a) + sx, (y1 + sy * b) + 0,
              e + -dy + 0)
            = (x1 + sx * (a + 1), y1 + sy * b,
              dx - dy - (a + 1) * dy + b * dx) := by
          rw [he]; simp only [Prod.mk.injEq]; refine ⟨by ring, by ring, by ring⟩
        rw [if_pos hxf, if_neg hyf, if_pos hxf, if_neg hyf, hstate]
        obtain ⟨ihh, ihl, ihc⟩ := ih (a + 1) b (by omega) (by omega) hb0 hb (by omega)
        obtain ⟨q', rest', hrest⟩ : ∃ q' rest',
            drawLineLoop dx dy sx sy x2 y2 n (x1 + sx * (a + 1), y1 + sy * b,
              dx - dy - (a + 1) * dy + b * dx) = q' :: rest' := by
          cases hd : drawLineLoop dx dy sx sy x2 y2 n (x1 + sx * (a + 1), y1 + sy * b,
              dx - dy - (a + 1) * dy + b * dx) with
          | nil => rw [hd] at ihh; simp at ihh
          | cons q' rest' => exact ⟨q', rest', rfl⟩
        rw [hrest] at ihh ihl ihc ⊢
        refine ⟨rfl, by rw [List.getLast?_cons_cons]; exact ihl, ?_⟩
        rw [List.chain'_cons']
        refine ⟨?_, ihc⟩
        intro z hz
        simp only [List.head?_cons, Option.mem_def, Option.some.injEq] at hz
        subst hz
        simp only [List.head?_cons, Option.some.injEq] at ihh
        rw [ihh]
        have hxa : ((⟨x1 + sx * a, y1 + sy * b⟩ : Point)).X = x1 + sx * a := rfl
        have hya : ((⟨x1 + sx * a, y1 + sy * b⟩ : Point)).Y = y1 + sy * b := rfl
        rw [hxa, hya, hchainval []]
        rw [if_pos hxf, if_neg hyf]
        simp only [Point.mk.injEq]
        constructor <;> ring
      -- only y fires
      · have hbux : b < dy := by
          rcases lt_or_eq_of_le hb with h | h
          · exact h
          · exfalso
            have hadx : a ≤ dx - 1 := by
              rcases lt_or_eq_of_le ha with h2 | h2
              · omega
              · exact absurd ⟨h2, h⟩ hend
            exact bres_no_y_overshoot dx dy a (by omega) ha0 hadx
              (by have h2 := hyf; rw [he, h] at h2; exact h2)
        have hstate : ((x1 + sx * a) + 0, (y1 + sy * b) + sy,
              e + 0 + dx)
            = (x1 + sx * a, y1 + sy * (b + 1),
              dx - dy - a * dy + (b + 1) * dx) := by
          rw [he]; simp only [Prod.mk.injEq]; refine ⟨by ring, by ring, by ring⟩
        rw [if_neg hxf, if_pos hyf, if_neg hxf, if_pos hyf, hstate]
        obtain ⟨ihh, ihl, ihc⟩ := ih a (b + 1) ha0 ha (by omega) (by omega) (by omega)
        obtain ⟨q', rest', hrest⟩ : ∃ q' rest',
            drawLineLoop dx dy sx sy x2 y2 n (x1 + sx * a, y1 + sy * (b + 1),
              dx - dy - a * dy + (b + 1) * dx) = q' :: rest' := by
          cases hd : drawLineLoop dx dy sx sy x2 y2 n (x1 + sx * a, y1 + sy * (b + 1),
              dx - dy - a * dy + (b + 1) * dx) with
          | nil => rw [hd] at ihh; simp at ihh
          | cons q' rest' => exact ⟨q', rest', rfl⟩
        rw [hrest] at ihh ihl ihc ⊢
        refine ⟨rfl, by rw [List.getLast?_cons_cons]; exact ihl, ?_⟩
        rw [List.chain'_cons']
        refine ⟨?_, ihc⟩
        intro z hz
        simp only [List.head?_cons, Option.mem_def, Option.some.injEq] at hz
        subst hz
        simp only [List.head?_cons, Option.some.injEq] at ihh
        rw [ihh]
        have hxa : ((⟨x1 + sx * a, y1 + sy * b⟩ : Point)).X = x1 + sx * a := rfl
        have hya : ((⟨x1 + sx * a, y1 + sy * b⟩ : Point)).Y = y1 + sy * b := rfl
        rw [hxa, hya, hchainval []]
        rw [if_neg hxf, if_pos hyf]
        simp only [Point.mk.injEq]
        constructor <;> ring
      -- neither fires: impossible
      · rcases hprog with h | h
        · exact absurd h hxf
        · exact absurd h hyf

theorem drawLinePoints_spec (p1 p2 : Point) :
    (drawLinePoints p1 p2).head? = some p1
    ∧ (drawLinePoints p1 p2).getLast? = some p2
    ∧ List.Chain' (fun q q' => q' = bresNextPoint p1 p2 q) (drawLinePoints p1 p2) := by
  have hdx := goAbs_nonneg (p2.X - p1.X)
  have hdy := goAbs_nonneg (p2.Y - p1.Y)
  have h := drawLineLoop_reaches p1.X p1.Y p2.X p2.Y
    (goAbs (p2.X - p1.X)) (goAbs (p2.Y - p1.Y))
    (if p1.X < p2.X then 1 else -1) (if p1.Y < p2.Y then 1 else -1)
    hdx hdy (by split <;> simp) (by split <;> simp)
    (goAbs_endpoint p1.X p2.X) (goAbs_endpoint p1.Y p2.Y)
    ((goAbs (p2.X - p1.X) + goAbs (p2.Y - p1.Y) + 1).toNat) 0 0
    le_rfl hdx le_rfl hdy (by omega)
  simp only [mul_zero, add_zero, zero_mul, sub_zero] at h
  exact h

/-! ## Lemmas: the polygon fill -/

/-- The span phase processes rows two at a time; unrolled to one row at
a time with the parity explicit, it is the even/odd pairing. -/
theorem drawSpanRows_parity (c : Pixel) :
    ∀ (xss : List (List Int)) (y : Int) (m : PPM),
      drawSpanRows c xss y m = drawSpanRowsParity c xss false y m
  | [], _, _ => rfl
  | [_], _, _ => rfl
  | xs :: xs1 :: rest, y, m => by
    rw [drawSpanRows, drawSpanRowsParity, drawSpanRowsParity]
    have hrec := drawSpanRows_parity c rest (y + 2)
      (drawPairsAll (y + 1) c xs1 (drawPairsEven y c xs m))
    simpa [show y + 1 + 1 = y + 2 by ring] using hrec

theorem appendAt_length (xss : List (List Int)) (i : Nat) (v : Int) :
    (appendAt xss i v).length = xss.length := by
  simp [appendAt]

theorem appendAt_getD (xss : List (List Int)) (i : Nat) (v : Int) (s : Nat)
    (hi : i < xss.length) :
    (appendAt xss i v).getD s []
      = if i = s then xss.getD s [] ++ [v] else xss.getD s [] := by
  unfold appendAt
  by_cases he : i = s
  · subst he
    rw [if_pos rfl, List.getD_eq_getElem?_getD, List.getElem?_eq_getElem (by simpa using hi)]
    simp only [List.getElem_set_self]
    rw [List.getD_eq_getElem?_getD, List.getElem?_eq_getElem hi]
    rfl
  · rw [if_neg he, List.getD_eq_getElem?_getD, List.getElem?_set_ne he,
      ← List.getD_eq_getElem?_getD]

theorem foldl_appendAt_getD (sY minY : Int) :
    ∀ (l : List (Nat × Int)) (xss : List (List Int)) (s : Nat),
      (∀ kv ∈ l, ((sY + kv.1 - minY).toNat) < xss.length) →
      (l.foldl (fun acc kv => appendAt acc (sY + kv.1 - minY).toNat kv.2) xss).getD s []
        = xss.getD s []
          ++ (l.filter (fun kv => (sY + kv.1 - minY).toNat = s)).map (·.2) := by
  intro l
  induction l with
  | nil => intro xss s _; simp
  | cons kv l ih =>
    intro xss s hb
    simp only [List.foldl_cons]
    rw [ih _ s (by
      intro kv2 hkv2
      rw [appendAt_length]
      exact hb kv2 (List.mem_cons_of_mem kv hkv2))]
    rw [appendAt_getD _ _ _ _ (hb kv (by simp))]
    by_cases he : (sY + kv.1 - minY).toNat = s
    · rw [if_pos he, List.filter_cons_of_pos (by simpa using he)]
      simp
    · rw [if_neg he, List.filter_cons_of_neg (by simpa using he)]

theorem addEdge_getD (minY : Int) (xss : List (List Int)) (p1 p2 : Point) (s : Nat)
    (hb : ∀ kv ∈ (edgeXs (if p1.Y ≤ p2.Y then p1 else p2)
        (if p1.Y ≤ p2.Y then p2 else p1)).enum,
      (((if p1.Y ≤ p2.Y then p1 else p2).Y + kv.1 - minY).toNat) < xss.length) :
    (addEdge minY xss p1 p2).getD s []
      = xss.getD s []
        ++ ((edgeXs (if p1.Y ≤ p2.Y then p1 else p2) (if p1.Y ≤ p2.Y then p2 else p1)).enum.filter
          (fun kv => ((if p1.Y ≤ p2.Y then p1 else p2).Y + kv.1 - minY).toNat = s)).map (·.2) := by
  unfold addEdge
  exact foldl_appendAt_getD _ minY _ xss s hb

theorem polyMinY_le (points : List Point) : ∀ p ∈ points, polyMinY points ≤ p.Y := by
  have key : ∀ (l : List Point) (init : Int),
      (l.foldl (fun acc p => if p.Y < acc then p.Y else acc) init) ≤ init
      ∧ ∀ p ∈ l, (l.foldl (fun acc p => if p.Y < acc then p.Y else acc) init) ≤ p.Y := by
    intro l
    induction l with
    | nil => intro init; simp
    | cons q l ih =>
      intro init
      simp only [List.foldl_cons]
      constructor
      · refine le_trans (ih _).1 ?_
        split <;> omega
      · intro p hp
        rcases List.mem_cons.1 hp with rfl | hp
        · refine le_trans (ih _).1 ?_
          split <;> omega
        · exact (ih _).2 p hp
  exact (key points _).2

theorem le_polyMaxY (points : List Point) : ∀ p ∈ points, p.Y ≤ polyMaxY points := by
  have key : ∀ (l : List Point) (init : Int),
      init ≤ (l.foldl (fun acc p => if acc < p.Y then p.Y else acc) init)
      ∧ ∀ p ∈ l, p.Y ≤ (l.foldl (fun acc p => if acc < p.Y then p.Y else acc) init) := by
    intro l
    induction l with
    | nil => intro init; simp
    | cons q l ih =>
      intro init
      simp only [List.foldl_cons]
      constructor
      · refine le_trans ?_ (ih _).1
        split <;> omega
      · intro p hp
        rcases List.mem_cons.1 hp with rfl | hp
        · refine le_trans ?_ (ih _).1
          split <;> omega
        · exact (ih _).2 p hp
  exact (key points _).2

theorem edgeXs_length (s e : Point) : (edgeXs s e).length = (e.Y - s.Y + 1).toNat := by
  show ((List.range ((e.Y - s.Y) + 1).toNat).map (fun (k : Nat) =>
    if e.Y - s.Y = 0 then Int.tdiv (2 * s.X + 1) 2
    else Int.tdiv (2 * (s.X * (e.Y - s.Y) + (k : Int) * (e.X - s.X)) + (e.Y - s.Y))
      (2 * (e.Y - s.Y)))).length = (e.Y - s.Y + 1).toNat
  rw [List.length_map, List.length_range]

theorem getD_mem_of_lt {α : Type} (l : List α) (i : Nat) (d : α) (h : i < l.length) :
    l.getD i d ∈ l := by
  rw [List.getD_eq_getElem?_getD, List.getElem?_eq_getElem h]
  exact List.getElem_mem h

theorem enum_fst_lt {α : Type} (l : List α) (kv : Nat × α) (h : kv ∈ l.enum) :
    kv.1 < l.length := by
  obtain ⟨i, x⟩ := kv
  rw [List.mk_mem_enum_iff_getElem?] at h
  exact (List.getElem?_eq_some.1 h).1

theorem edgeOf_fst (points : List Point) (i : Nat) :
    (edgeOf points i).1 = if (points.getD i ⟨0, 0⟩).Y
        ≤ (points.getD ((i + 1) % points.length) ⟨0, 0⟩).Y
      then points.getD i ⟨0, 0⟩ else points.getD ((i + 1) % points.length) ⟨0, 0⟩ := by
  unfold edgeOf
  by_cases hc : (points.getD i ⟨0, 0⟩).Y ≤ (points.getD ((i + 1) % points.length) ⟨0, 0⟩).Y
  · rw [if_pos hc, if_pos hc]
  · rw [if_neg hc, if_neg hc]

theorem edgeOf_snd (points : List Point) (i : Nat) :
    (edgeOf points i).2 = if (points.getD i ⟨0, 0⟩).Y
        ≤ (points.getD ((i + 1) % points.length) ⟨0, 0⟩).Y
      then points.getD ((i + 1) % points.length) ⟨0, 0⟩ else points.getD i ⟨0, 0⟩ := by
  unfold edgeOf
  by_cases hc : (points.getD i ⟨0, 0⟩).Y ≤ (points.getD ((i + 1) % points.length) ⟨0, 0⟩).Y
  · rw [if_pos hc, if_pos hc]
  · rw [if_neg hc, if_neg hc]

theorem edgeOf_mem (points : List Point) (i : Nat) (hi : i < points.length)
    (hlen0 : 0 < points.length) :
    (edgeOf points i).1 ∈ points ∧ (edgeOf points i).2 ∈ points := by
  have h1 := getD_mem_of_lt points i (⟨0, 0⟩ : Point) hi
  have h2 := getD_mem_of_lt points ((i + 1) % points.length) (⟨0, 0⟩ : Point)
    (Nat.mod_lt _ hlen0)
  rw [edgeOf_fst, edgeOf_snd]
  constructor <;> split <;> assumption

theorem edgeOf_y_le (points : List Point) (i : Nat) :
    (edgeOf points i).1.Y ≤ (edgeOf points i).2.Y := by
  rw [edgeOf_fst, edgeOf_snd]
  split <;> omega

theorem addEdge_length (minY : Int) (xss : List (List Int)) (p1 p2 : Point) :
    (addEdge minY xss p1 p2).length = xss.length := by
  show (((edgeXs (if p1.Y ≤ p2.Y then p1 else p2) (if p1.Y ≤ p2.Y then p2 else p1)).enum).foldl
      (fun acc kv => appendAt acc
        ((if p1.Y ≤ p2.Y then p1 else p2).Y + kv.1 - minY).toNat kv.2) xss).length
    = xss.length
  generalize (edgeXs (if p1.Y ≤ p2.Y then p1 else p2) (if p1.Y ≤ p2.Y then p2 else p1)).enum = l
  induction l generalizing xss with
  | nil => rfl
  | cons kv l ih =>
    simp only [List.foldl_cons]
    rw [ih]
    exact appendAt_length _ _ _

theorem foldl_addEdge_getD (points : List Point) (minY : Int) (s : Nat) :
    ∀ (is : List Nat) (xss : List (List Int)),
      (∀ i ∈ is, ∀ kv ∈ (edgeXs (edgeOf points i).1 (edgeOf points i).2).enum,
        (((edgeOf points i).1.Y + kv.1 - minY).toNat) < xss.length) →
      ((is.foldl (fun xss i => addEdge minY xss (points.getD i ⟨0, 0⟩)
          (points.getD ((i + 1) % points.length) ⟨0, 0⟩)) xss)).getD s []
        = xss.getD s [] ++ ((is.map (fun i => edgeContrib points minY i s)).flatten) := by
  intro is
  induction is with
  | nil => intro xss _; simp
  | cons i is ih =>
    intro xss hb
    simp only [List.foldl_cons, List.map_cons, List.flatten_cons]
    rw [ih _ (by
      intro j hj kv hkv
      rw [addEdge_length]
      exact hb j (List.mem_cons_of_mem i hj) kv hkv)]
    have hbi := hb i (by simp)
    rw [edgeOf_fst, edgeOf_snd] at hbi
    have hadd := addEdge_getD minY xss (points.getD i ⟨0, 0⟩)
      (points.getD ((i + 1) % points.length) ⟨0, 0⟩) s (by
        intro kv hkv
        by_cases hc : (points.getD i ⟨0, 0⟩).Y
            ≤ (points.getD ((i + 1) % points.length) ⟨0, 0⟩).Y
        · have := hbi kv (by simp only [if_pos hc] at *; exact hkv)
          simp only [if_pos hc] at this ⊢
          exact this
        · have := hbi kv (by simp only [if_neg hc] at *; exact hkv)
          simp only [if_neg hc] at this ⊢
          exact this)
    rw [hadd]
    rw [show edgeContrib points minY i s
        = ((edgeXs (if (points.getD i ⟨0, 0⟩).Y
              ≤ (points.getD ((i + 1) % points.length) ⟨0, 0⟩).Y
            then points.getD i ⟨0, 0⟩ else points.getD ((i + 1) % points.length) ⟨0, 0⟩)
            (if (points.getD i ⟨0, 0⟩).Y
              ≤ (points.getD ((i + 1) % points.length) ⟨0, 0⟩).Y
            then points.getD ((i + 1) % points.length) ⟨0, 0⟩
            else points.getD i ⟨0, 0⟩)).enum.filter
          (fun kv => ((if (points.getD i ⟨0, 0⟩).Y
              ≤ (points.getD ((i + 1) % points.length) ⟨0, 0⟩).Y
            then points.getD i ⟨0, 0⟩
            else points.getD ((i + 1) % points.length) ⟨0, 0⟩).Y + kv.1 - minY).toNat
              = s)).map (·.2) by
      simp only [edgeContrib]
      rw [edgeOf_fst, edgeOf_snd]]
    simp [List.append_assoc]

/-- The edge table of the fill, read one scanline at a time, is exactly
the claim's unsorted in-edge-order concatenation of contributions. -/
theorem buildXco_getD (points : List Point) (hne : points ≠ []) (s : Nat) :
    (buildXco points (polyMinY points) (polyMaxY points)).getD s []
      = xcoSpec points (polyMinY points) s := by
  have hlen0 : 0 < points.length := List.length_pos.2 hne
  unfold buildXco xcoSpec
  rw [foldl_addEdge_getD points (polyMinY points) s (List.range points.length)
    (List.replicate (polyMaxY points - polyMinY points + 1).toNat []) (by
      intro i hi kv hkv
      rw [List.length_replicate]
      have hi' : i < points.length := List.mem_range.1 hi
      have hmem := edgeOf_mem points i hi' hlen0
      have hminle := polyMinY_le points _ hmem.1
      have hmaxle := le_polyMaxY points _ hmem.2
      have hyle := edgeOf_y_le points i
      have hk := enum_fst_lt _ kv hkv
      rw [edgeXs_length] at hk
      omega)]
  rw [show (List.replicate (polyMaxY points - polyMinY points + 1).toNat
      ([] : List Int)).getD s [] = [] by
    rw [List.getD_eq_getElem?_getD]
    by_cases hs : s < (polyMaxY points - polyMinY points + 1).toNat
    · rw [List.getElem?_eq_getElem (by simpa using hs)]
      simp
    · rw [List.getElem?_eq_none (by simpa using hs)]
      rfl]
  rfl

/-! ## The claims -/

/-- Claim C1, counterexample: a color image whose stored max is 100 is
inverted with the fixed 255-complement, not with `maxValue - channel`
(the spec-modelled `ppmInvertSpec`): channel 10 becomes 245, not 90. -/
theorem C1_counterexample :
    (PPM.Invert ⟨[[⟨10, 20, 30⟩]], 1, 1, mP3, 100⟩).data = [[⟨245, 235, 225⟩]]
    ∧ (ppmInvertSpec ⟨[[⟨10, 20, 30⟩]], 1, 1, mP3, 100⟩).data = [[⟨90, 80, 70⟩]] := by
  decide

/-- Claim C1 (corrected): `PGM.Invert` does replace every sample by
`maxValue - v` and `PBM.Invert` negates every sample, but `PPM.Invert`
replaces every channel by the fixed complement `255 - c`, ignoring the
image's stored max. -/
theorem C1_invert (g : PGM) (b : PBM) (m : PPM)
    (hg : ∀ r ∈ g.data, ∀ v ∈ r, v ≤ g.max) (hgm : g.max ≤ 255)
    (hm : ∀ r ∈ m.data, ∀ p ∈ r, p.R ≤ 255 ∧ p.G ≤ 255 ∧ p.B ≤ 255) :
    g.Invert.data = g.data.map (fun r => r.map fun v => g.max - v)
    ∧ m.Invert.data = m.data.map (fun r => r.map fun p =>
        (⟨255 - p.R, 255 - p.G, 255 - p.B⟩ : Pixel))
    ∧ b.Invert.data = b.data.map fun r => r.map (!·) := by
  refine ⟨?_, ?_, rfl⟩
  · show g.data.map _ = _
    apply List.map_congr_left
    intro r hr
    apply List.map_congr_left
    intro v hv
    have hb := hg r hr v hv
    show u8sub g.max v = g.max - v
    unfold u8sub
    omega
  · show m.data.map _ = _
    apply List.map_congr_left
    intro r hr
    apply List.map_congr_left
    intro p hp
    have hb := hm r hr p hp
    show (⟨u8sub 255 p.R, u8sub 255 p.G, u8sub 255 p.B⟩ : Pixel) = _
    unfold u8sub
    simp only [Pixel.mk.injEq]
    refine ⟨by omega, by omega, by omega⟩

/-- Claim C1, witness: the corrected statement at a concrete grayscale,
bitmap and color image. -/
theorem C1_invert_witness :
    (PGM.Invert ⟨[[5]], 1, 1, mP2, 7⟩).data
      = ([[5]] : List (List Nat)).map (fun r => r.map fun v => 7 - v)
    ∧ (PPM.Invert ⟨[[⟨10, 20, 30⟩]], 1, 1, mP3, 100⟩).data
      = ([[⟨10, 20, 30⟩]] : List (List Pixel)).map (fun r => r.map fun p =>
          (⟨255 - p.R, 255 - p.G, 255 - p.B⟩ : Pixel))
    ∧ (PBM.Invert ⟨[[true, false]], 2, 1, mP1⟩).data
      = ([[true, false]] : List (List Bool)).map fun r => r.map (!·) :=
  C1_invert ⟨[[5]], 1, 1, mP2, 7⟩ ⟨[[true, false]], 2, 1, mP1⟩
    ⟨[[⟨10, 20, 30⟩]], 1, 1, mP3, 100⟩ (by decide) (by decide) (by decide)

/-- Claim C2, counterexample: on a 1×1 image, the exposed accessors at
the out-of-range coordinate `(1, 0)` do not signal anything — both
`PPM.SetPixel` and `PGM.Set` return the image unchanged, exactly like
the internal primitive, while the spec-modelled signalling setter
reports the error. -/
theorem C2_counterexample :
    PPM.SetPixel ⟨[[⟨1, 2, 3⟩]], 1, 1, mP3, 255⟩ ⟨1, 0⟩ ⟨9, 9, 9⟩
      = ⟨[[⟨1, 2, 3⟩]], 1, 1, mP3, 255⟩
    ∧ PGM.Set ⟨[[5]], 1, 1, mP2, 255⟩ 1 0 9 = ⟨[[5]], 1, 1, mP2, 255⟩
    ∧ setPixelSignalling ⟨[[⟨1, 2, 3⟩]], 1, 1, mP3, 255⟩ ⟨1, 0⟩ ⟨9, 9, 9⟩ = none := by
  decide

/-- Claim C2 (corrected): at any coordinate outside
`[0,width) × [0,height)` the exposed `PPM.SetPixel` and `PGM.Set` are
silent no-ops (they clip rather than signal), just like the internal
raster primitive `PPM.setPixel`; the accessors that do signal out of
range are `PPM.Set`, which panics explicitly, and `PBM.Set`, whose
unchecked indexing panics on any rectangular buffer (both modelled as
`none`). -/
theorem C2_set_pixel (m : PPM) (g : PGM) (b : PBM) (p : Point) (c : Pixel)
    (x y xb yb : Int) (v : Nat) (bit : Bool)
    (hp : ¬(0 ≤ p.X ∧ p.X < m.width ∧ 0 ≤ p.Y ∧ p.Y < m.height))
    (hxy : ¬(0 ≤ x ∧ x < g.width ∧ 0 ≤ y ∧ y < g.height))
    (hbl : b.data.length = b.height.toNat)
    (hbr : ∀ r ∈ b.data, r.length = b.width.toNat)
    (hxyb : ¬(0 ≤ xb ∧ xb < b.width ∧ 0 ≤ yb ∧ yb < b.height)) :
    m.SetPixel p c = m
    ∧ m.setPixel p.X p.Y c = m
    ∧ g.Set x y v = g
    ∧ m.Set p.X p.Y c = none
    ∧ b.Set xb yb bit = none := by
  refine ⟨?_, ?_, ?_, ?_, ?_⟩
  · simp only [PPM.SetPixel]
    rw [if_neg hp]
  · simp only [PPM.setPixel]
    rw [if_neg hp]
  · simp only [PGM.Set]
    rw [if_neg hxy]
  · simp only [PPM.Set]
    rw [if_pos (by omega)]
  · simp only [PBM.Set]
    rw [if_neg ?hc]
    intro hc
    obtain ⟨hy0, hylen, hx0, hxlen⟩ := hc
    have hrow := hbr (b.data.getD yb.toNat []) (getD_mem_of_lt _ _ _ hylen)
    rw [hrow] at hxlen
    rw [hbl] at hylen
    omega

/-- Claim C2, witness: the corrected statement on concrete 1×1 images at
coordinate `(1, 0)`. -/
theorem C2_set_pixel_witness :
    PPM.SetPixel ⟨[[⟨1, 2, 3⟩]], 1, 1, mP3, 255⟩ ⟨1, 0⟩ ⟨9, 9, 9⟩
      = ⟨[[⟨1, 2, 3⟩]], 1, 1, mP3, 255⟩
    ∧ PPM.setPixel ⟨[[⟨1, 2, 3⟩]], 1, 1, mP3, 255⟩ 1 0 ⟨9, 9, 9⟩
      = ⟨[[⟨1, 2, 3⟩]], 1, 1, mP3, 255⟩
    ∧ PGM.Set ⟨[[5]], 1, 1, mP2, 255⟩ 1 0 9 = ⟨[[5]], 1, 1, mP2, 255⟩
    ∧ PPM.Set ⟨[[⟨1, 2, 3⟩]], 1, 1, mP3, 255⟩ 1 0 ⟨9, 9, 9⟩ = none
    ∧ PBM.Set ⟨[[true]], 1, 1, mP1⟩ 1 0 false = none :=
  C2_set_pixel ⟨[[⟨1, 2, 3⟩]], 1, 1, mP3, 255⟩ ⟨[[5]], 1, 1, mP2, 255⟩
    ⟨[[true]], 1, 1, mP1⟩ ⟨1, 0⟩ ⟨9, 9, 9⟩ 1 0 1 0 9 false
    (by decide) (by decide) (by decide) (by decide) (by decide)

/-- Claim C3 (confirmed): every well-formed image of each variant
round-trips — `Save` succeeds and the matching `Read` of its output
returns the identical image (pixel buffer, dimensions, max and magic
all included) — and the 2×2 P1 scenario stream decodes to
`[[true, false], [false, true]]` and re-encodes byte-identically. -/
theorem C3_round_trip :
    (∀ m : PBM, m.wf → ∃ s, m.Save = some s ∧ ReadPBM s = .ok m)
    ∧ (∀ g : PGM, g.wf → ∃ s, g.Save = some s ∧ ReadPGM s = .ok g)
    ∧ (∀ p : PPM, p.wf → ∃ s, p.Save = some s ∧ ReadPPM s = .ok p)
    ∧ ReadPBM [80, 49, 10, 50, 32, 50, 10, 49, 32, 48, 10, 48, 32, 49, 10]
      = .ok ⟨[[true, false], [false, true]], 2, 2, mP1⟩
    ∧ (⟨[[true, false], [false, true]], 2, 2, mP1⟩ : PBM).Save
      = some [80, 49, 10, 50, 32, 50, 10, 49, 32, 48, 10, 48, 32, 49, 10] :=
  ⟨ReadPBM_Save, ReadPGM_Save, ReadPPM_Save, by decide, by decide⟩

/-- Claim C3, witness: the round trip applied to one concrete
well-formed image of each of the six variants. -/
theorem C3_round_trip_witness :
    (∃ s, (⟨[[true]], 1, 1, mP1⟩ : PBM).Save = some s
      ∧ ReadPBM s = .ok ⟨[[true]], 1, 1, mP1⟩)
    ∧ (∃ s, (⟨[[false, true]], 2, 1, mP4⟩ : PBM).Save = some s
      ∧ ReadPBM s = .ok ⟨[[false, true]], 2, 1, mP4⟩)
    ∧ (∃ s, (⟨[[7]], 1, 1, mP2, 255⟩ : PGM).Save = some s
      ∧ ReadPGM s = .ok ⟨[[7]], 1, 1, mP2, 255⟩)
    ∧ (∃ s, (⟨[[8, 9]], 2, 1, mP5, 200⟩ : PGM).Save = some s
      ∧ ReadPGM s = .ok ⟨[[8, 9]], 2, 1, mP5, 200⟩)
    ∧ (∃ s, (⟨[[⟨1, 2, 3⟩]], 1, 1, mP3, 255⟩ : PPM).Save = some s
      ∧ ReadPPM s = .ok ⟨[[⟨1, 2, 3⟩]], 1, 1, mP3, 255⟩)
    ∧ (∃ s, (⟨[[⟨4, 5, 6⟩]], 1, 1, mP6, 255⟩ : PPM).Save = some s
      ∧ ReadPPM s = .ok ⟨[[⟨4, 5, 6⟩]], 1, 1, mP6, 255⟩) :=
  ⟨C3_round_trip.1 _ ⟨by decide, by decide, by decide, by decide, by decide⟩,
   C3_round_trip.1 _ ⟨by decide, by decide, by decide, by decide, by decide⟩,
   C3_round_trip.2.1 _ ⟨by decide, by decide, by decide, by decide, by decide, by decide⟩,
   C3_round_trip.2.1 _ ⟨by decide, by decide, by decide, by decide, by decide, by decide⟩,
   C3_round_trip.2.2.1 _ ⟨by decide, by decide, by decide, by decide, by decide, by decide⟩,
   C3_round_trip.2.2.1 _ ⟨by decide, by decide, by decide, by decide, by decide, by decide⟩⟩

/-- Claim C4, counterexample: inverting a color image whose stored max
is 100 produces channel 245, far above the stored max — the sample
bound invariant is not preserved by `PPM.Invert`. -/
theorem C4_counterexample :
    ¬ (∀ r ∈ (PPM.Invert ⟨[[⟨10, 20, 30⟩]], 1, 1, mP3, 100⟩).data, ∀ p ∈ r,
        p.R ≤ (PPM.Invert ⟨[[⟨10, 20, 30⟩]], 1, 1, mP3, 100⟩).max
        ∧ p.G ≤ (PPM.Invert ⟨[[⟨10, 20, 30⟩]], 1, 1, mP3, 100⟩).max
        ∧ p.B ≤ (PPM.Invert ⟨[[⟨10, 20, 30⟩]], 1, 1, mP3, 100⟩).max) := by
  decide

/-- Claim C4 (corrected): the grayscale operations preserve the sample
bound — after `PGM.Invert` every sample is still at most the stored
max, and after `PGM.SetMaxValue`/`PPM.SetMaxValue` every channel is at
most the new stored max — but `PPM.Invert` only bounds channels by 255,
not by the image's stored max (see the counterexample). -/
theorem C4_sample_bound (g : PGM) (m : PPM) (newMax : Nat)
    (hg : ∀ r ∈ g.data, ∀ v ∈ r, v ≤ g.max) (hgm : g.max ≤ 255) (hg0 : 0 < g.max)
    (hm : ∀ r ∈ m.data, ∀ p ∈ r, p.R ≤ m.max ∧ p.G ≤ m.max ∧ p.B ≤ m.max)
    (hm0 : 0 < m.max) :
    (∀ r ∈ g.Invert.data, ∀ v ∈ r, v ≤ g.Invert.max)
    ∧ (∀ r ∈ (g.SetMaxValue newMax).data, ∀ v ∈ r, v ≤ (g.SetMaxValue newMax).max)
    ∧ (∀ r ∈ (m.SetMaxValue newMax).data, ∀ p ∈ r,
        p.R ≤ (m.SetMaxValue newMax).max ∧ p.G ≤ (m.SetMaxValue newMax).max
        ∧ p.B ≤ (m.SetMaxValue newMax).max)
    ∧ (∀ r ∈ m.Invert.data, ∀ p ∈ r, p.R ≤ 255 ∧ p.G ≤ 255 ∧ p.B ≤ 255) := by
  have hscaleg : ∀ v : Nat, v ≤ g.max → scaleU8 v newMax g.max ≤ newMax := by
    intro v hv
    unfold scaleU8
    calc v * newMax / g.max ≤ g.max * newMax / g.max :=
          Nat.div_le_div_right (Nat.mul_le_mul_right _ hv)
      _ = newMax := by rw [Nat.mul_div_cancel_left _ hg0]
  have hscalem : ∀ v : Nat, v ≤ m.max → scaleU8 v newMax m.max ≤ newMax := by
    intro v hv
    unfold scaleU8
    calc v * newMax / m.max ≤ m.max * newMax / m.max :=
          Nat.div_le_div_right (Nat.mul_le_mul_right _ hv)
      _ = newMax := by rw [Nat.mul_div_cancel_left _ hm0]
  refine ⟨?_, ?_, ?_, ?_⟩
  · intro r hr v hv
    simp only [PGM.Invert, List.mem_map] at hr
    obtain ⟨r0, hr0, rfl⟩ := hr
    simp only [List.mem_map] at hv
    obtain ⟨v0, hv0, rfl⟩ := hv
    have hb := hg r0 hr0 v0 hv0
    show u8sub g.max v0 ≤ g.max
    unfold u8sub
    omega
  · intro r hr v hv
    simp only [PGM.SetMaxValue, List.mem_map] at hr
    obtain ⟨r0, hr0, rfl⟩ := hr
    simp only [List.mem_map] at hv
    obtain ⟨v0, hv0, rfl⟩ := hv
    exact hscaleg v0 (hg r0 hr0 v0 hv0)
  · intro r hr p hp
    simp only [PPM.SetMaxValue, List.mem_map] at hr
    obtain ⟨r0, hr0, rfl⟩ := hr
    simp only [List.mem_map] at hp
    obtain ⟨p0, hp0, rfl⟩ := hp
    obtain ⟨hbR, hbG, hbB⟩ := hm r0 hr0 p0 hp0
    exact ⟨hscalem _ hbR, hscalem _ hbG, hscalem _ hbB⟩
  · intro r hr p hp
    simp only [PPM.Invert, List.mem_map] at hr
    obtain ⟨r0, hr0, rfl⟩ := hr
    simp only [List.mem_map] at hp
    obtain ⟨p0, hp0, rfl⟩ := hp
    refine ⟨?_, ?_, ?_⟩ <;> · show u8sub 255 _ ≤ 255; unfold u8sub; omega

/-- Claim C4, witness: the corrected bound at a concrete grayscale and
color image and a concrete new max. -/
theorem C4_sample_bound_witness :
    (∀ r ∈ (PGM.Invert ⟨[[5]], 1, 1, mP2, 7⟩).data, ∀ v ∈ r,
      v ≤ (PGM.Invert ⟨[[5]], 1, 1, mP2, 7⟩).max)
    ∧ (∀ r ∈ (PGM.SetMaxValue ⟨[[5]], 1, 1, mP2, 7⟩ 30).data, ∀ v ∈ r,
      v ≤ (PGM.SetMaxValue ⟨[[5]], 1, 1, mP2, 7⟩ 30).max)
    ∧ (∀ r ∈ (PPM.SetMaxValue ⟨[[⟨10, 20, 30⟩]], 1, 1, mP3, 100⟩ 30).data, ∀ p ∈ r,
      p.R ≤ (PPM.SetMaxValue ⟨[[⟨10, 20, 30⟩]], 1, 1, mP3, 100⟩ 30).max
      ∧ p.G ≤ (PPM.SetMaxValue ⟨[[⟨10, 20, 30⟩]], 1, 1, mP3, 100⟩ 30).max
      ∧ p.B ≤ (PPM.SetMaxValue ⟨[[⟨10, 20, 30⟩]], 1, 1, mP3, 100⟩ 30).max)
    ∧ (∀ r ∈ (PPM.Invert ⟨[[⟨10, 20, 30⟩]], 1, 1, mP3, 100⟩).data, ∀ p ∈ r,
      p.R ≤ 255 ∧ p.G ≤ 255 ∧ p.B ≤ 255) :=
  C4_sample_bound ⟨[[5]], 1, 1, mP2, 7⟩ ⟨[[⟨10, 20, 30⟩]], 1, 1, mP3, 100⟩ 30
    (by decide) (by decide) (by decide) (by decide) (by decide)

set_option maxRecDepth 100000 in
/-- Claim C5, counterexample: filling the quadrilateral
`(0,0), (0,1), (2,3), (4,1)` on a 5×4 canvas.  Scanline 1's edge table
is `[0, 0, 4, 4]` in edge order; consecutive pairing (the spec-modelled
`drawFilledPolygonSpec`) paints only `x = 0` and `x = 4` there, but the
code's odd-scanline loop advances by 1 and paints the whole row —
pixel `(2, 1)` distinguishes them. -/
theorem C5_counterexample :
    ((PPM.DrawFilledPolygon
        ⟨List.replicate 4 (List.replicate 5 ⟨0, 0, 0⟩), 5, 4, mP3, 255⟩
        [⟨0, 0⟩, ⟨0, 1⟩, ⟨2, 3⟩, ⟨4, 1⟩] ⟨9, 9, 9⟩).data.getD 1 []).getD 2 ⟨0, 0, 0⟩
      = ⟨9, 9, 9⟩
    ∧ ((drawFilledPolygonSpec
        ⟨List.replicate 4 (List.replicate 5 ⟨0, 0, 0⟩), 5, 4, mP3, 255⟩
        [⟨0, 0⟩, ⟨0, 1⟩, ⟨2, 3⟩, ⟨4, 1⟩] ⟨9, 9, 9⟩).data.getD 1 []).getD 2 ⟨0, 0, 0⟩
      = ⟨0, 0, 0⟩ := by
  decide

/-- Claim C5 (corrected): the edge table is built exactly as claimed —
every scanline's list is the edges' interpolated x-intersections
concatenated in edge-processing order, unsorted — but the span phase
pairs consecutive entries (0–1, 2–3, …) only on even-offset scanlines;
on odd-offset scanlines the loop advances by 1 and draws a span between
every two adjacent entries (0–1, 1–2, …). -/
theorem C5_polygon_fill (points : List Point) (hne : points ≠ []) (m : PPM) (c : Pixel)
    (s : Nat) :
    (buildXco points (polyMinY points) (polyMaxY points)).getD s []
      = xcoSpec points (polyMinY points) s
    ∧ m.DrawFilledPolygon points c
      = drawSpanRowsParity c (buildXco points (polyMinY points) (polyMaxY points))
          false (polyMinY points) m := by
  refine ⟨buildXco_getD points hne s, ?_⟩
  simp only [PPM.DrawFilledPolygon]
  rw [drawSpanRows_parity]

/-- Claim C5, witness: the corrected statement at a concrete triangle. -/
theorem C5_polygon_fill_witness :
    (buildXco [⟨0, 0⟩, ⟨2, 2⟩, ⟨4, 0⟩] (polyMinY [⟨0, 0⟩, ⟨2, 2⟩, ⟨4, 0⟩])
        (polyMaxY [⟨0, 0⟩, ⟨2, 2⟩, ⟨4, 0⟩])).getD 1 []
      = xcoSpec [⟨0, 0⟩, ⟨2, 2⟩, ⟨4, 0⟩] (polyMinY [⟨0, 0⟩, ⟨2, 2⟩, ⟨4, 0⟩]) 1
    ∧ PPM.DrawFilledPolygon ⟨List.replicate 3 (List.replicate 5 ⟨0, 0, 0⟩), 5, 3, mP3, 255⟩
        [⟨0, 0⟩, ⟨2, 2⟩, ⟨4, 0⟩] ⟨9, 9, 9⟩
      = drawSpanRowsParity ⟨9, 9, 9⟩
          (buildXco [⟨0, 0⟩, ⟨2, 2⟩, ⟨4, 0⟩] (polyMinY [⟨0, 0⟩, ⟨2, 2⟩, ⟨4, 0⟩])
            (polyMaxY [⟨0, 0⟩, ⟨2, 2⟩, ⟨4, 0⟩]))
          false (polyMinY [⟨0, 0⟩, ⟨2, 2⟩, ⟨4, 0⟩])
          ⟨List.replicate 3 (List.replicate 5 ⟨0, 0, 0⟩), 5, 3, mP3, 255⟩ :=
  C5_polygon_fill [⟨0, 0⟩, ⟨2, 2⟩, ⟨4, 0⟩] (by decide)
    ⟨List.replicate 3 (List.replicate 5 ⟨0, 0, 0⟩), 5, 3, mP3, 255⟩ ⟨9, 9, 9⟩ 1

set_option maxRecDepth 100000 in
/-- Claim C6, counterexample: `DrawFilledRectangle((0,0), 3, 2, c)` on
the 5×5 canvas also paints cell `(3, 0)`, which the claim places
outside the touched region `x ∈ [0,3) × y ∈ [0,2)`. -/
theorem C6_counterexample :
    ((PPM.DrawFilledRectangle ⟨List.replicate 5 (List.replicate 5 ⟨0, 0, 0⟩), 5, 5, mP3, 255⟩
        ⟨0, 0⟩ 3 2 ⟨200, 50, 25⟩).data.getD 0 []).getD 3 ⟨0, 0, 0⟩ = ⟨200, 50, 25⟩ := by
  decide

set_option maxRecDepth 100000 in
/-- Claim C6 (corrected): `DrawFilledRectangle((0,0), 3, 2, c)` on a 5×5
canvas paints exactly the 12 cells of the inclusive block
`x ∈ [0,3] × y ∈ [0,2]` (the nested borders cover both closed
extents) and leaves every other cell of the buffer unchanged. -/
theorem C6_filled_rectangle :
    PPM.DrawFilledRectangle ⟨List.replicate 5 (List.replicate 5 ⟨0, 0, 0⟩), 5, 5, mP3, 255⟩
        ⟨0, 0⟩ 3 2 ⟨200, 50, 25⟩
      = ⟨List.replicate 3 [⟨200, 50, 25⟩, ⟨200, 50, 25⟩, ⟨200, 50, 25⟩, ⟨200, 50, 25⟩, ⟨0, 0, 0⟩]
          ++ List.replicate 2 (List.replicate 5 ⟨0, 0, 0⟩), 5, 5, mP3, 255⟩ := by
  decide

/-- Claim C7, counterexample: decoding a P1 image of width 2 whose row
line has three tokens fails with the extra-token error (the extras are
not ignored), while a row line with a single token succeeds, zero
filling the missing sample (no truncated-data failure). -/
theorem C7_counterexample :
    ReadPBM [80, 49, 10, 50, 32, 49, 10, 49, 32, 48, 32, 49, 10]
      = .error (.extraTokens 0)
    ∧ ReadPBM [80, 49, 10, 50, 32, 49, 10, 49, 10] = .ok ⟨[[true, false]], 2, 1, mP1⟩
    ∧ ReadPGM [80, 50, 10, 50, 32, 49, 10, 57, 10, 55, 10]
      = .ok ⟨[[7, 0]], 2, 1, mP2, 9⟩ := by
  decide

/-- Claim C7 (corrected): the ASCII row loops behave opposite to the
claim — a row line with more than `width` tokens makes the decode fail
with the source's extra-token error, and a row line with fewer than
`width` tokens succeeds, leaving the missing entries at their
zero-initialised values (false / 0); this holds for both the P1 and the
P2 row loop. -/
theorem C7_row_tokens (width : Int) (y : Nat) (toks : List ByteStream) (vals : List Nat)
    (hw : 0 ≤ width) (hv : ∀ v ∈ vals, v ≤ 255) :
    (width < (toks.length : Int) →
      fillBoolRow width y (List.replicate width.toNat false) 0 toks
        = .error (.extraTokens y))
    ∧ (toks.length ≤ width.toNat →
      fillBoolRow width y (List.replicate width.toNat false) 0 toks
        = .ok (toks.map (fun f => decide (f = [49]))
            ++ List.replicate (width.toNat - toks.length) false))
    ∧ (width < (vals.length : Int) →
      fillNatRow width y (List.replicate width.toNat 0) 0 (vals.map natDecimal)
        = .error (.extraTokens y))
    ∧ (vals.length ≤ width.toNat →
      fillNatRow width y (List.replicate width.toNat 0) 0 (vals.map natDecimal)
        = .ok (vals ++ List.replicate (width.toNat - vals.length) 0)) := by
  refine ⟨?_, ?_, ?_, ?_⟩
  · intro hlen
    exact fillBoolRow_extra width y toks _ 0 (by omega) (by push_cast; omega)
  · intro hlen
    have h := fillBoolRow_ok width y toks (List.replicate width.toNat false) 0
      (by rw [List.length_replicate]; omega) (by rw [List.length_replicate]; omega)
    rw [h]
    simp [List.drop_replicate]
  · intro hlen
    exact fillNatRow_extra width y vals _ 0 (by omega) (by push_cast; omega) hv
  · intro hlen
    have h := fillNatRow_ok width y vals (List.replicate width.toNat 0) 0
      (by rw [List.length_replicate]; omega) (by rw [List.length_replicate]; omega) hv
    rw [h]
    simp [List.drop_replicate]

/-- Claim C7, witness: the corrected row behavior at width 2 with a
three-token line, a one-token line, and the grayscale analogues. -/
theorem C7_row_tokens_witness :
    fillBoolRow 2 0 (List.replicate (2 : Int).toNat false) 0 [[49], [48], [49]]
      = .error (.extraTokens 0)
    ∧ fillBoolRow 2 0 (List.replicate (2 : Int).toNat false) 0 [[49]]
      = .ok (([[49]] : List ByteStream).map (fun f => decide (f = [49]))
          ++ List.replicate ((2 : Int).toNat - 1) false)
    ∧ fillNatRow 2 0 (List.replicate (2 : Int).toNat 0) 0 ([7, 8, 9].map natDecimal)
      = .error (.extraTokens 0)
    ∧ fillNatRow 2 0 (List.replicate (2 : Int).toNat 0) 0 ([200].map natDecimal)
      = .ok ([200] ++ List.replicate ((2 : Int).toNat - 1) 0) :=
  ⟨(C7_row_tokens 2 0 [[49], [48], [49]] [] (by decide) (by decide)).1 (by decide),
   (C7_row_tokens 2 0 [[49]] [] (by decide) (by decide)).2.1 (by decide),
   (C7_row_tokens 2 0 [] [7, 8, 9] (by decide) (by decide)).2.2.1 (by decide),
   (C7_row_tokens 2 0 [] [200] (by decide) (by decide)).2.2.2 (by decide)⟩

/-- Trimming is unaffected by the line's trailing newline. -/
theorem trimSpace_append_nl (l : ByteStream) : trimSpace (l ++ [10]) = trimSpace l := by
  unfold trimSpace
  rw [List.dropWhile_append]
  cases h : l.dropWhile isSpaceByte with
  | nil =>
    rw [if_pos (show ([] : ByteStream).isEmpty = true from rfl)]
    rw [show List.dropWhile isSpaceByte [10] = [] from rfl]
  | cons a l2 =>
    rw [if_neg (by simp)]
    rw [List.reverse_append, List.reverse_singleton, List.singleton_append,
      List.dropWhile_cons, if_pos (by decide)]

/-- Claim C8, counterexample: `ReadPBM` never checks the parsed
dimensions — the stream `P1 0 0` decodes to an empty image instead of
failing with the invalid-dimensions error, and `P1 2 -1` crashes (the
Go `make` panics on a negative length) instead of failing with it. -/
theorem C8_counterexample :
    ReadPBM [80, 49, 10, 48, 32, 48, 10] = .ok ⟨[], 0, 0, mP1⟩
    ∧ ReadPBM [80, 49, 10, 50, 32, 45, 49, 10] = .error .runtimeCrash := by
  decide

/-- Claim C8 (corrected): on an unparsable dimensions record all three
decoders fail with the invalid-dimensions error, and the grayscale and
color decoders also fail with it on any non-positive parsed width or
height, for every continuation of the stream; but the bitmap decoder
has no non-positivity check — zero dimensions decode to an empty image
and a negative height makes it crash (see the counterexample). -/
theorem C8_dimensions (w h : Int) (rest : ByteStream) (l2 : ByteStream)
    (hwh : w ≤ 0 ∨ h ≤ 0) (hl2 : 10 ∉ l2)
    (hparse : parseDims (trimSpace l2) = none) :
    ReadPGM (mP2 ++ 10 :: ((intDecimal w ++ [32] ++ intDecimal h) ++ 10 :: rest))
      = .error .invalidDimensions
    ∧ ReadPPM (mP3 ++ 10 :: ((intDecimal w ++ [32] ++ intDecimal h) ++ 10 :: rest))
      = .error .invalidDimensions
    ∧ ReadPBM (mP1 ++ 10 :: (l2 ++ 10 :: rest)) = .error .invalidDimensions
    ∧ ReadPGM (mP2 ++ 10 :: (l2 ++ 10 :: rest)) = .error .invalidDimensions
    ∧ ReadPPM (mP3 ++ 10 :: (l2 ++ 10 :: rest)) = .error .invalidDimensions := by
  have hln2 := readStringNL_append (intDecimal w ++ [32] ++ intDecimal h) rest
    (dims_no_newline w h)
  have htrim := trimSpace_dims w h
  have hdims := parseDims_dimsLine w h
  have hln2u := readStringNL_append l2 rest hl2
  have htrimu := trimSpace_append_nl l2
  refine ⟨?_, ?_, ?_, ?_, ?_⟩
  · have hln1 := readStringNL_append mP2
      ((intDecimal w ++ [32] ++ intDecimal h) ++ 10 :: rest) (by decide)
    simp only [ReadPGM, hln1, show trimSpace (mP2 ++ [10]) = mP2 by decide]
    rw [if_neg (show ¬(mP2 ≠ mP2 ∧ mP2 ≠ mP5) by decide)]
    simp only [hln2, htrim, hdims]
    rw [if_pos hwh]
  · have hln1 := readStringNL_append mP3
      ((intDecimal w ++ [32] ++ intDecimal h) ++ 10 :: rest) (by decide)
    simp only [ReadPPM, hln1, show trimSpace (mP3 ++ [10]) = mP3 by decide]
    rw [if_neg (show ¬(mP3 ≠ mP3 ∧ mP3 ≠ mP6) by decide)]
    simp only [hln2, htrim, hdims]
    rw [if_pos hwh]
  · have hln1 := readStringNL_append mP1 (l2 ++ 10 :: rest) (by decide)
    simp only [ReadPBM, hln1, show trimSpace (mP1 ++ [10]) = mP1 by decide]
    rw [if_neg (show ¬(mP1 ≠ mP1 ∧ mP1 ≠ mP4) by decide)]
    simp only [hln2u, htrimu, hparse]
  · have hln1 := readStringNL_append mP2 (l2 ++ 10 :: rest) (by decide)
    simp only [ReadPGM, hln1, show trimSpace (mP2 ++ [10]) = mP2 by decide]
    rw [if_neg (show ¬(mP2 ≠ mP2 ∧ mP2 ≠ mP5) by decide)]
    simp only [hln2u, htrimu, hparse]
  · have hln1 := readStringNL_append mP3 (l2 ++ 10 :: rest) (by decide)
    simp only [ReadPPM, hln1, show trimSpace (mP3 ++ [10]) = mP3 by decide]
    rw [if_neg (show ¬(mP3 ≠ mP3 ∧ mP3 ≠ mP6) by decide)]
    simp only [hln2u, htrimu, hparse]

/-- Claim C8, witness: the corrected statement at the dimensions
record `0 5`, the unparsable record `a`, and an empty remainder. -/
theorem C8_dimensions_witness :
    ReadPGM (mP2 ++ 10 :: ((intDecimal 0 ++ [32] ++ intDecimal 5) ++ 10 :: []))
      = .error .invalidDimensions
    ∧ ReadPPM (mP3 ++ 10 :: ((intDecimal 0 ++ [32] ++ intDecimal 5) ++ 10 :: []))
      = .error .invalidDimensions
    ∧ ReadPBM (mP1 ++ 10 :: ([97] ++ 10 :: [])) = .error .invalidDimensions
    ∧ ReadPGM (mP2 ++ 10 :: ([97] ++ 10 :: [])) = .error .invalidDimensions
    ∧ ReadPPM (mP3 ++ 10 :: ([97] ++ 10 :: [])) = .error .invalidDimensions :=
  C8_dimensions 0 5 [] [97] (Or.inl (by decide)) (by decide) (by decide)

set_option maxRecDepth 100000 in
/-- Claim C9 (confirmed): for every pair of endpoints the visited
lattice points start at the first endpoint, end at the second, and each
consecutive pair is related by exactly the claimed update rule (with
`e2 = 2·err`, step x when `e2 > -dy`, step y when `e2 < dx`, both
possibly at once); and the concrete diagonal scenario paints exactly
the four diagonal cells of a 4×4 canvas. -/
theorem C9_draw_line :
    (∀ p1 p2 : Point,
      (drawLinePoints p1 p2).head? = some p1
      ∧ (drawLinePoints p1 p2).getLast? = some p2
      ∧ List.Chain' (fun q q' => q' = bresNextPoint p1 p2 q) (drawLinePoints p1 p2))
    ∧ PPM.DrawLine ⟨List.replicate 4 (List.replicate 4 ⟨255, 255, 255⟩), 4, 4, mP3, 255⟩
        ⟨0, 0⟩ ⟨3, 3⟩ ⟨0, 0, 0⟩
      = ⟨[[⟨0, 0, 0⟩, ⟨255, 255, 255⟩, ⟨255, 255, 255⟩, ⟨255, 255, 255⟩],
          [⟨255, 255, 255⟩, ⟨0, 0, 0⟩, ⟨255, 255, 255⟩, ⟨255, 255, 255⟩],
          [⟨255, 255, 255⟩, ⟨255, 255, 255⟩, ⟨0, 0, 0⟩, ⟨255, 255, 255⟩],
          [⟨255, 255, 255⟩, ⟨255, 255, 255⟩, ⟨255, 255, 255⟩, ⟨0, 0, 0⟩]],
         4, 4, mP3, 255⟩ :=
  ⟨drawLinePoints_spec, by decide⟩

/-- Claim C10 (confirmed): decoding enforces no sample bound — a P2
stream with max 9 and the sample token 200 decodes successfully to an
image whose sample exceeds its stored max, and likewise a P3 stream
with max 9 and a channel token 200. -/
theorem C10_no_sample_bound :
    ReadPGM [80, 50, 10, 49, 32, 49, 10, 57, 10, 50, 48, 48, 10]
      = .ok ⟨[[200]], 1, 1, mP2, 9⟩
    ∧ 9 < (((200 : Nat) :: []) : List Nat).headD 0
    ∧ ReadPPM [80, 51, 10, 49, 32, 49, 10, 57, 10, 50, 48, 48, 32, 48, 32, 48, 10]
      = .ok ⟨[[⟨200, 0, 0⟩]], 1, 1, mP3, 9⟩ := by
  decide

end Netpbm
